import Mathlib

set_option maxRecDepth 20000

/-!
Verification development for the jedi fast-parser tokenizer
(`jedi/parser/tokenize.py`, a modified copy of the stdlib tokenizer).

The tokenizer is shallowly embedded below.  Source text is modelled as
`List Char`; the module-level compiled regular expressions of the source
file are fixed, so each one is hand-compiled into a deterministic Lean
matcher with the same (leftmost alternative, greedy, backtracking)
semantics as Python `re` on that concrete pattern.  Where backtracking of
a concrete pattern can be resolved statically (e.g. the alternatives of a
group start with pairwise disjoint character classes), the matcher is
written in the resolved deterministic form; every such resolution step is
commented at the matcher.

Python `\w` is unicode-aware; the model uses its ASCII fragment
(letters, digits, underscore).  Every property proved here is insensitive
to which extra letters count as word characters.

`contline` in `generate_tokens` is write-only state (it is assigned and
self-extended but never read into any token or branch condition), so it
is omitted from the engine state.
-/

namespace Jedi

/-- Single-quote character (written by code to keep apostrophes out of literals). -/
def q1 : Char := '\x27'

/-- Double-quote character. -/
def q2 : Char := '"'

/-- Token types; the source uses the numeric codes of the stdlib `token`
module plus a custom `COMMENT = N_TOKENS` that is reserved but never
emitted. -/
inductive TokType where
  | ENDMARKER
  | NAME
  | NUMBER
  | STRING
  | NEWLINE
  | INDENT
  | DEDENT
  | OP
  | ERRORTOKEN
  | COMMENT
deriving DecidableEq, Repr

/-- The `Token` record of the source: type, value, start position
(line, column) and the leading whitespace text.  The source calls the
last field `prefix`; that word is a Lean keyword, hence `prefixVal`. -/
structure Token where
  type : TokType
  value : List Char
  startLine : Nat
  startCol : Nat
  prefixVal : List Char
deriving DecidableEq, Repr

/-- Constructor matching `Token(type, value, start_pos, prefix)`. -/
def mkTok (ty : TokType) (v : List Char) (pos : Nat × Nat) (pre : List Char) : Token :=
  ⟨ty, v, pos.1, pos.2, pre⟩

/-- The split of `str.split` on a single character, specialised to
the line feed: `splitNl v` lists the fragments of `v` between line
feeds; it always has `count + 1` entries and `splitNl [] = [[]]`. -/
def splitNl : List Char → List (List Char)
  | [] => [[]]
  | c :: cs =>
    if c = '\n' then [] :: splitNl cs
    else
      match splitNl cs with
      | [] => [[c]]
      | l :: ls => (c :: l) :: ls

/-- The derived end position of a token (`Token.end_pos` in the source):
split the value on line feeds, fold a trailing line feed back into the
last fragment, and advance line/column accordingly. -/
def Token.end_pos (t : Token) : Nat × Nat :=
  let lines0 := splitNl t.value
  let lines :=
    if t.value.getLast? = some '\n' then
      (lines0.dropLast).dropLast ++ [(lines0.dropLast).getLastD [] ++ ['\n']]
    else lines0
  let endLine := t.startLine + (lines.length - 1)
  let lastFrag := lines.getLastD []
  if t.startLine = endLine then (endLine, t.startCol + lastFrag.length)
  else (endLine, lastFrag.length)

/-! ## Character classes of the module-level tables -/

/-- The whitespace class `[ \f\t]` of the `whitespace` pattern. -/
def isWsChar (c : Char) : Bool := c = ' ' || c = '\x0c' || c = '\t'

/-- The class `[0-9]` (`numchars` in the source is the same set). -/
def isDigitChar (c : Char) : Bool := '0' ≤ c && c ≤ '9'

/-- ASCII fragment of the `\w` class of the `name` pattern. -/
def isWordChar (c : Char) : Bool := c.isAlpha || isDigitChar c || c = '_'

/-- Membership in `namechars = string.ascii_letters + '_'` (ASCII only,
unlike the `name` pattern; the source keeps both). -/
def isNameChar (c : Char) : Bool := c.isAlpha || c = '_'

/-- The one-character operator class `[+\-*/%&|^=<>]`. -/
def isOpChar (c : Char) : Bool :=
  c = '+' || c = '-' || c = '*' || c = '/' || c = '%' || c = '&' ||
  c = '|' || c = '^' || c = '=' || c = '<' || c = '>'

/-- The punctuation class `[:;.,@]` of the `special` pattern. -/
def isPunctChar (c : Char) : Bool :=
  c = ':' || c = ';' || c = '.' || c = ',' || c = '@'

/-- Hexadecimal digit class `[0-9a-fA-F]`. -/
def isHexChar (c : Char) : Bool :=
  isDigitChar c || ('a' ≤ c && c ≤ 'f') || ('A' ≤ c && c ≤ 'F')

/-- Binary digit class `[01]`. -/
def isBinChar (c : Char) : Bool := c = '0' || c = '1'

/-- Octal digit class `[0-7]`. -/
def isOctChar (c : Char) : Bool := '0' ≤ c && c ≤ '7'

/-! ## Hand-compiled matchers for the module patterns

Each matcher takes the text from the current position and returns
`some (matched, rest)` with `matched ++ rest` equal to the input, or
`none`.  `altM` is ordered alternation (first hit wins), matching the
semantics of `|` in a Python pattern with nothing following the group. -/

/-- Ordered alternation of two matchers on the same input. -/
def altM {α : Type} (a b : Option α) : Option α :=
  match a with
  | some x => some x
  | none => b

/-- Optional single character of a class (`[..]?`); greedy, which is
faithful whenever the continuation cannot start with that class. -/
def matchOpt (p : Char → Bool) : List Char → List Char × List Char
  | [] => ([], [])
  | c :: cs => if p c then ([c], cs) else ([], c :: cs)

/-- Pattern `\\\r?\n` (first alternative of `pseudo_extras`). -/
def matchBackslashNl : List Char → Option (List Char × List Char)
  | '\\' :: '\r' :: '\n' :: r => some (['\\', '\r', '\n'], r)
  | '\\' :: '\n' :: r => some (['\\', '\n'], r)
  | _ => none

/-- Pattern `#[^\r\n]*` (the `comment` pattern). -/
def matchComment : List Char → Option (List Char × List Char)
  | '#' :: cs =>
    let t := cs.takeWhile (fun c => !(c = '\r' || c = '\n'))
    some ('#' :: t, cs.dropWhile (fun c => !(c = '\r' || c = '\n')))
  | _ => none

/-- One alternative `[bB]?[rR]?qqq` of the `triple` pattern for quote
character `q`.  The optional classes are disjoint from the quote, so
greedy matching without backtracking is faithful. -/
def matchTripleQ (q : Char) (s : List Char) : Option (List Char × List Char) :=
  let m1 := matchOpt (fun c => c = 'b' || c = 'B') s
  let m2 := matchOpt (fun c => c = 'r' || c = 'R') m1.2
  match m2.2 with
  | c1 :: c2 :: c3 :: r =>
    if c1 = q && c2 = q && c3 = q then some (m1.1 ++ m2.1 ++ [q, q, q], r) else none
  | _ => none

/-- The `triple` pattern: `group("[bB]?[rR]?'''", "[bB]?[rR]?\x22\x22\x22")`
(note: no `u` prefix in this pattern, unlike the lookup tables). -/
def matchTriple (s : List Char) : Option (List Char × List Char) :=
  altM (matchTripleQ q1 s) (matchTripleQ q2 s)

/-- Pattern `[eE][-+]?[0-9]+` (the `exponent` pattern).  If the sign is
present but no digit follows, dropping the sign cannot help (the sign is
not a digit), so the match fails. -/
def matchExponent : List Char → Option (List Char × List Char)
  | c :: rest =>
    if c = 'e' || c = 'E' then
      match rest with
      | s :: rest2 =>
        if s = '+' || s = '-' then
          if rest2.takeWhile isDigitChar = [] then none
          else some (c :: s :: rest2.takeWhile isDigitChar, rest2.dropWhile isDigitChar)
        else
          if rest.takeWhile isDigitChar = [] then none
          else some (c :: rest.takeWhile isDigitChar, rest.dropWhile isDigitChar)
      | [] => none
    else none
  | [] => none

/-- The `float_number` pattern
`group([0-9]+\.[0-9]* | \.[0-9]+) maybe(exponent) | [0-9]+ exponent`,
alternatives in source order.  Greedy digit runs need no backtracking:
shortening a digit run only exposes another digit where a non-digit is
required. -/
def matchFloat (s : List Char) : Option (List Char × List Char) :=
  altM
    (if s.takeWhile isDigitChar = [] then none
     else
       match s.dropWhile isDigitChar with
       | '.' :: rest2 =>
         let f := rest2.takeWhile isDigitChar
         let rest3 := rest2.dropWhile isDigitChar
         match matchExponent rest3 with
         | some (e, rest4) => some (s.takeWhile isDigitChar ++ '.' :: (f ++ e), rest4)
         | none => some (s.takeWhile isDigitChar ++ '.' :: f, rest3)
       | _ => none)
    (altM
      (match s with
       | '.' :: rest =>
         (if rest.takeWhile isDigitChar = [] then none
          else
            let f := rest.takeWhile isDigitChar
            let rest2 := rest.dropWhile isDigitChar
            match matchExponent rest2 with
            | some (e, r) => some ('.' :: (f ++ e), r)
            | none => some ('.' :: f, rest2))
       | _ => none)
      (if s.takeWhile isDigitChar = [] then none
       else
         match matchExponent (s.dropWhile isDigitChar) with
         | some (e, r) => some (s.takeWhile isDigitChar ++ e, r)
         | none => none))

/-- Helper for `imag_number`: `j` or `J` right after a prefix match. -/
def requireJ (t : List Char) (rest : List Char) : Option (List Char × List Char) :=
  match rest with
  | c :: r => if c = 'j' || c = 'J' then some (t ++ [c], r) else none
  | [] => none

/-- The `imag_number` pattern `group([0-9]+[jJ], float_number [jJ])`.
For the second alternative the regex backtracks over the optional
exponent; when the exponent matched, the no-exponent retry faces an `e`
where `[jJ]` is required, so it always fails and is omitted. -/
def matchImag (s : List Char) : Option (List Char × List Char) :=
  altM
    (if s.takeWhile isDigitChar = [] then none
     else requireJ (s.takeWhile isDigitChar) (s.dropWhile isDigitChar))
    (altM
      (if s.takeWhile isDigitChar = [] then none
       else
         match s.dropWhile isDigitChar with
         | '.' :: rest2 =>
           let f := rest2.takeWhile isDigitChar
           let rest3 := rest2.dropWhile isDigitChar
           match matchExponent rest3 with
           | some (e, rest4) => requireJ (s.takeWhile isDigitChar ++ '.' :: (f ++ e)) rest4
           | none => requireJ (s.takeWhile isDigitChar ++ '.' :: f) rest3
         | _ => none)
      (altM
        (match s with
         | '.' :: rest =>
           (if rest.takeWhile isDigitChar = [] then none
            else
              let f := rest.takeWhile isDigitChar
              let rest2 := rest.dropWhile isDigitChar
              match matchExponent rest2 with
              | some (e, r) => requireJ ('.' :: (f ++ e)) r
              | none => requireJ ('.' :: f) rest2)
         | _ => none)
        (if s.takeWhile isDigitChar = [] then none
         else
           match matchExponent (s.dropWhile isDigitChar) with
           | some (e, r) => requireJ (s.takeWhile isDigitChar ++ e) r
           | none => none)))

/-- The `int_number` pattern
`group(0[xX][0-9a-fA-F]+, 0[bB][01]+, 0[oO][0-7]+, 0+|[1-9][0-9]*)`. -/
def matchInt (s : List Char) : Option (List Char × List Char) :=
  altM
    (match s with
     | '0' :: c :: rest =>
       if c = 'x' || c = 'X' then
         if rest.takeWhile isHexChar = [] then none
         else some ('0' :: c :: rest.takeWhile isHexChar, rest.dropWhile isHexChar)
       else none
     | _ => none)
    (altM
      (match s with
       | '0' :: c :: rest =>
         if c = 'b' || c = 'B' then
           if rest.takeWhile isBinChar = [] then none
           else some ('0' :: c :: rest.takeWhile isBinChar, rest.dropWhile isBinChar)
         else none
       | _ => none)
      (altM
        (match s with
         | '0' :: c :: rest =>
           if c = 'o' || c = 'O' then
             if rest.takeWhile isOctChar = [] then none
             else some ('0' :: c :: rest.takeWhile isOctChar, rest.dropWhile isOctChar)
           else none
         | _ => none)
        (match s with
         | '0' :: _ =>
           some (s.takeWhile (fun c => c = '0'), s.dropWhile (fun c => c = '0'))
         | c :: rest =>
           if '1' ≤ c && c ≤ '9' then
             some (c :: rest.takeWhile isDigitChar, rest.dropWhile isDigitChar)
           else none
         | [] => none)))

/-- The `number` pattern `group(imag_number, float_number, int_number)`. -/
def matchNumber (s : List Char) : Option (List Char × List Char) :=
  altM (matchImag s) (altM (matchFloat s) (matchInt s))

/-- The `operator` pattern, alternatives in source order (longest first
within a family): `\*\*=?`, `>>=?`, `<<=?`, `!=`, `//=?`, `->`,
`[+\-*/%&|^=<>]=?`, `~`. -/
def matchOperator (s : List Char) : Option (List Char × List Char) :=
  match s with
  | '*' :: '*' :: '=' :: r => some (['*', '*', '='], r)
  | '*' :: '*' :: r => some (['*', '*'], r)
  | '>' :: '>' :: '=' :: r => some (['>', '>', '='], r)
  | '>' :: '>' :: r => some (['>', '>'], r)
  | '<' :: '<' :: '=' :: r => some (['<', '<', '='], r)
  | '<' :: '<' :: r => some (['<', '<'], r)
  | '!' :: '=' :: r => some (['!', '='], r)
  | '/' :: '/' :: '=' :: r => some (['/', '/', '='], r)
  | '/' :: '/' :: r => some (['/', '/'], r)
  | '-' :: '>' :: r => some (['-', '>'], r)
  | c :: rest =>
    if isOpChar c then
      match rest with
      | '=' :: r => some ([c, '='], r)
      | _ => some ([c], rest)
    else if c = '~' then some (['~'], rest)
    else none
  | [] => none

/-- The `bracket` pattern `[][(){}]`. -/
def matchBracket : List Char → Option (List Char × List Char)
  | c :: r =>
    if c = '[' || c = ']' || c = '(' || c = ')' || c = '\x7b' || c = '\x7d' then
      some ([c], r)
    else none
  | [] => none

/-- The `special` pattern `group(\r?\n, \.\.\., [:;.,@])`. -/
def matchSpecial : List Char → Option (List Char × List Char)
  | '\r' :: '\n' :: r => some (['\r', '\n'], r)
  | '\n' :: r => some (['\n'], r)
  | '.' :: '.' :: '.' :: r => some (['.', '.', '.'], r)
  | c :: r => if isPunctChar c then some ([c], r) else none
  | [] => none

/-- The `funny` pattern `group(operator, bracket, special)`. -/
def matchFunny (s : List Char) : Option (List Char × List Char) :=
  altM (matchOperator s) (altM (matchBracket s) (matchSpecial s))

/-- Body-and-ender of one `cont_str` alternative after its opening quote:
`[^\nq\\]*(\\.[^\nq\\]*)* ( q | \\\r?\n )` for quote `q`.  Returns the
consumed text including the ender.  Backtracking resolution: at a
backslash followed by `\n` (or by `\r\n`), the escape step `\\.` cannot
proceed past the line feed, and every backtracking alternative fails
except the ender `\\\r?\n` at that backslash, so the match ends there;
at a backslash followed by any other character the escape consumes both;
a bare line feed or end of input fails the whole alternative. -/
def contStrBody (q : Char) : List Char → Option (List Char × List Char)
  | [] => none
  | c :: cs =>
    if c = q then some ([c], cs)
    else if c = '\\' then
      match cs with
      | '\n' :: r => some (['\\', '\n'], r)
      | '\r' :: '\n' :: r => some (['\\', '\r', '\n'], r)
      | c2 :: r =>
        if c2 = '\n' then none
        else (contStrBody q r).map (fun p => ('\\' :: c2 :: p.1, p.2))
      | [] => none
    else if c = '\n' then none
    else (contStrBody q cs).map (fun p => (c :: p.1, p.2))

/-- One alternative of `cont_str`: `[bBuU]?[rR]?q` then `contStrBody`.
The optional prefix classes are disjoint from the quote, so greedy
matching is faithful. -/
def matchContStrQ (q : Char) (s : List Char) : Option (List Char × List Char) :=
  let m1 := matchOpt (fun c => c = 'b' || c = 'B' || c = 'u' || c = 'U') s
  let m2 := matchOpt (fun c => c = 'r' || c = 'R') m1.2
  match m2.2 with
  | c :: rest =>
    if c = q then (contStrBody q rest).map (fun p => (m1.1 ++ m2.1 ++ c :: p.1, p.2))
    else none
  | [] => none

/-- The `cont_str` pattern (first line of a single/double-quoted string). -/
def matchContStr (s : List Char) : Option (List Char × List Char) :=
  altM (matchContStrQ q1 s) (matchContStrQ q2 s)

/-- The `name` pattern `\w+` (ASCII fragment). -/
def matchName (s : List Char) : Option (List Char × List Char) :=
  if s.takeWhile isWordChar = [] then none
  else some (s.takeWhile isWordChar, s.dropWhile isWordChar)

/-- Group 2 of `pseudo_token`:
`group(pseudo_extras, number, funny, cont_str, name)` with
`pseudo_extras = group(\\\r?\n, comment, triple)`. -/
def matchGroup2 (s : List Char) : Option (List Char × List Char) :=
  altM (matchBackslashNl s)
    (altM (matchComment s)
      (altM (matchTriple s)
        (altM (matchNumber s)
          (altM (matchFunny s)
            (altM (matchContStr s) (matchName s))))))

/-- `pseudoprog.match(line, pos)` on the suffix of the line from `pos`:
group 1 is the greedy whitespace run, group 2 the token.  No alternative
of group 2 can start with a whitespace-class character, so a failing
group 2 cannot be rescued by shortening group 1, and the whole match
fails exactly when group 2 fails after the whitespace. -/
def pseudoMatch (s : List Char) : Option (List Char × List Char × List Char) :=
  let ws := s.takeWhile isWsChar
  (matchGroup2 (s.dropWhile isWsChar)).map (fun p => (ws, p.1, p.2))

/-! ## Closing-pattern matchers (`endprogs`) -/

/-- The four compiled closing patterns a continued string can use. -/
inductive EndProg where
  | singleQ
  | doubleQ
  | single3
  | double3
deriving DecidableEq, Repr

/-- Tail of a one-quote string (`single` / `double` pattern):
`[^q\\]*(\\.[^q\\]*)*q`.  Line feeds are allowed in the runs (unlike the
first-line pattern), but `.` still cannot consume one, so a backslash
directly before a line feed fails the whole match. -/
def endSingle (q : Char) : List Char → Option (List Char × List Char)
  | [] => none
  | c :: cs =>
    if c = q then some ([c], cs)
    else if c = '\\' then
      match cs with
      | c2 :: r =>
        if c2 = '\n' then none
        else (endSingle q r).map (fun p => ('\\' :: c2 :: p.1, p.2))
      | [] => none
    else (endSingle q cs).map (fun p => (c :: p.1, p.2))

/-- Tail of a triple-quoted string (`single3` / `double3` pattern):
`[^q\\]*((\\.|q(?!qq))[^q\\]*)*qqq`.  A quote followed by two more quotes
ends the match (the negative lookahead blocks the single-quote step,
and re-testing the ender at that spot agrees); any other quote is
consumed singly. -/
def endTriple (q : Char) : List Char → Option (List Char × List Char)
  | [] => none
  | c :: cs =>
    if c = q then
      match cs with
      | c2 :: c3 :: r =>
        if c2 = q && c3 = q then some ([q, q, q], r)
        else (endTriple q cs).map (fun p => (c :: p.1, p.2))
      | _ => (endTriple q cs).map (fun p => (c :: p.1, p.2))
    else if c = '\\' then
      match cs with
      | c2 :: r =>
        if c2 = '\n' then none
        else (endTriple q r).map (fun p => ('\\' :: c2 :: p.1, p.2))
      | [] => none
    else (endTriple q cs).map (fun p => (c :: p.1, p.2))

/-- Run the closing pattern of a continued string (`endprog.match`). -/
def endProgMatch : EndProg → List Char → Option (List Char × List Char)
  | .singleQ => endSingle q1
  | .doubleQ => endSingle q2
  | .single3 => endTriple q1
  | .double3 => endTriple q2

/-- The `endprogs` entry for a key of `triple_quoted`: every such key maps
to `single3prog` or `double3prog` according to its quote character (the
last character of the key). -/
def tripleEndprog (tok : List Char) : EndProg :=
  if tok.getLast? = some q1 then .single3 else .double3

/-- Single-character lookup in `endprogs`: only the two quote characters
map to a (truthy) program; the keys `r`, `R`, `b`, `B` map to `None` and
`u`, `U` are absent, so all of those behave as a miss under Python `or`. -/
def endprogFor1 (c : Char) : Option EndProg :=
  if c = q1 then some .singleQ else if c = q2 then some .doubleQ else none

/-- `endprogs.get(initial) or endprogs.get(token[1]) or endprogs.get(token[2])`.
The fallback `.singleQ` is unreachable: a `cont_str` token has its quote
within the first three characters. -/
def resolveEndprog (tok : List Char) : EndProg :=
  (altM (endprogFor1 (tok.getD 0 ' '))
    (altM (endprogFor1 (tok.getD 1 ' ')) (endprogFor1 (tok.getD 2 ' ')))).getD .singleQ

/-! ## Static lookup tables -/

/-- The keys of the `triple_quoted` dict, exactly as listed in the source. -/
def tripleQuotedList : List (List Char) :=
  [[q1, q1, q1], [q2, q2, q2],
   ['r', q1, q1, q1], ['r', q2, q2, q2], ['R', q1, q1, q1], ['R', q2, q2, q2],
   ['b', q1, q1, q1], ['b', q2, q2, q2], ['B', q1, q1, q1], ['B', q2, q2, q2],
   ['u', q1, q1, q1], ['u', q2, q2, q2], ['U', q1, q1, q1], ['U', q2, q2, q2],
   ['b', 'r', q1, q1, q1], ['b', 'r', q2, q2, q2],
   ['B', 'r', q1, q1, q1], ['B', 'r', q2, q2, q2],
   ['b', 'R', q1, q1, q1], ['b', 'R', q2, q2, q2],
   ['B', 'R', q1, q1, q1], ['B', 'R', q2, q2, q2]]

/-- The keys of the `single_quoted` dict, exactly as listed in the source —
including the misprinted entry `u` followed by two double quotes where
`u` + one double quote was surely meant. -/
def singleQuotedList : List (List Char) :=
  [[q1], [q2],
   ['r', q1], ['r', q2], ['R', q1], ['R', q2],
   ['b', q1], ['b', q2], ['B', q1], ['B', q2],
   ['u', q1], ['u', q2, q2], ['U', q1], ['U', q2],
   ['b', 'r', q1], ['b', 'r', q2], ['B', 'r', q1], ['B', 'r', q2],
   ['b', 'R', q1], ['b', 'R', q2], ['B', 'R', q1], ['B', 'R', q2]]

/-- Helper: the character list of a string literal. -/
def lc (s : String) : List Char := s.toList

/-- `ALWAYS_BREAK_TOKEN`: keyword texts that trigger the
indentation-recovery heuristic (the `;` entry is unreachable from the
name branch but is in the table). -/
def alwaysBreakTokens : List (List Char) :=
  [[';'], lc "import", lc "from", lc "class", lc "def", lc "try",
   lc "except", lc "finally", lc "while", lc "return"]

/-! ## The tokenizer engine -/

/-- Mutable state of one `generate_tokens` run (minus the dead `contline`;
`lnum` is included since it advances with the line reads).  `indents` is
Python's indentation stack with the top at the *head* (Python appends at
the end); the sentinel `0` is therefore the last element. -/
structure EngState where
  parenLevel : Int
  indents : List Nat
  lnum : Nat
  contstr : List Char
  contstrStart : Nat × Nat
  endprog : EndProg
  newLine : Bool
  prefixVal : List Char
deriving DecidableEq, Repr

/-- Initial engine state (`paren_level = 0`, `indents = [0]`,
`lnum = line_offset`, no continued string, `new_line = False`,
`prefix = ''`). -/
def initState (lineOffset : Nat) : EngState :=
  { parenLevel := 0
    indents := [0]
    lnum := lineOffset
    contstr := []
    contstrStart := (0, 0)
    endprog := .singleQ
    newLine := false
    prefixVal := [] }

/-- The dedent loop `while start < indents[-1]: yield DEDENT; pop`,
emitting one `Dedent` at `spos` per popped level.  The sentinel `0`
always stops it, so the empty-stack arm is unreachable. -/
def dedentsBelow (start : Nat) (spos : Nat × Nat) : List Nat → List Token × List Nat
  | [] => ([], [])
  | i :: is =>
    if start < i then
      let p := dedentsBelow start spos is
      (mkTok .DEDENT [] spos [] :: p.1, p.2)
    else ([], i :: is)

/-- The recovery-heuristic loop: pop levels strictly greater than the
keyword column, emitting a `Dedent` at `(lnum, 0)` for each, and push
the first non-greater level back. -/
def breakDedents (start : Nat) (lnum : Nat) : List Nat → List Token × List Nat
  | [] => ([], [])
  | i :: is =>
    if i > start then
      let p := breakDedents start lnum is
      (mkTok .DEDENT [] (lnum, 0) [] :: p.1, p.2)
    else ([], i :: is)

/-- The indent/dedent block at the first fresh-line token: push-and-emit
`Indent` when the column exceeds the top, else pop-and-emit `Dedent`s
while the top exceeds the column.  (In the source the push and the while
loop are sequential; after a push the loop guard is immediately false,
so the if/else form is equivalent.) -/
def indentTokens (start : Nat) (spos : Nat × Nat) (paren : Int) (indents : List Nat) :
    List Token × List Nat :=
  if paren = 0 then
    if start > indents.headD 0 then
      ([mkTok .INDENT [] spos []], start :: indents)
    else dedentsBelow start spos indents
  else ([], indents)

/-- Result of handling one successful pseudo-match: either continue the
inner loop at a new suffix/column, or break out of the line (a continued
string was opened). -/
inductive ScanOut where
  | cont (toks : List Token) (rest : List Char) (newPos : Nat) (st : EngState)
  | stop (toks : List Token) (st : EngState)

/-- The fresh-line block: when the fresh-line flag is set and the token
is not a line terminator or a comment, clear the flag and (at nesting
depth 0) emit the indent/dedent tokens for the token's column. -/
def freshLineBlock (start : Nat) (spos : Nat × Nat) (initial : Char) (st : EngState) :
    List Token × EngState :=
  if st.newLine && !(initial = '\r' || initial = '\n' || initial = '#') then
    let p := indentTokens start spos st.parenLevel st.indents
    (p.1, { st with newLine := false, indents := p.2 })
  else ([], st)

/-- Prepend tokens (the fresh-line block output) to a scan outcome. -/
def prependToks (ts : List Token) : ScanOut → ScanOut
  | .cont toks rest newPos st => .cont (ts ++ toks) rest newPos st
  | .stop toks st => .stop (ts ++ toks) st

/-- The tokens of a scan outcome. -/
def ScanOut.outToks : ScanOut → List Token
  | .cont toks _ _ _ => toks
  | .stop toks _ => toks

/-- The state of a scan outcome. -/
def ScanOut.outSt : ScanOut → EngState
  | .cont _ _ _ st => st
  | .stop _ st => st

/-- The `elif` chain of the inner loop after the fresh-line block,
mirroring the source branch by branch.  `st` is the state after the
fresh-line block (its `prefixVal` is the whitespace of the match);
`spos = (lnum, start)`; `tok ++ rest` is `line[start:]` and is used
wherever the source slices from `start`. -/
def classifyBranch (tok rest : List Char) (start newPos lnum : Nat) (st : EngState) :
    ScanOut :=
  let spos := (lnum, start)
  let initial := tok.headD ' '
  if isDigitChar initial || (initial = '.' && tok ≠ ['.'] && tok ≠ ['.', '.', '.']) then
    .cont [mkTok .NUMBER tok spos st.prefixVal] rest newPos st
  else if initial = '\r' || initial = '\n' then
    let ts := if !st.newLine && st.parenLevel = 0 then [mkTok .NEWLINE tok spos st.prefixVal] else []
    .cont ts rest newPos { st with newLine := true }
  else if initial = '#' then
    -- comments are consumed without emitting (COMMENT stays reserved)
    .cont [] rest newPos st
  else if tok ∈ tripleQuotedList then
    let ep := tripleEndprog tok
    match endProgMatch ep rest with
    | some (t2, r2) =>
      .cont [mkTok .STRING (tok ++ t2) spos st.prefixVal] r2 (newPos + t2.length) st
    | none =>
      .stop [] { st with contstrStart := spos, contstr := tok ++ rest, endprog := ep }
  else if [initial] ∈ singleQuotedList || tok.take 2 ∈ singleQuotedList ||
      tok.take 3 ∈ singleQuotedList then
    if tok.getLast? = some '\n' then
      .stop [] { st with contstrStart := spos, endprog := resolveEndprog tok,
                         contstr := tok ++ rest }
    else
      .cont [mkTok .STRING tok spos st.prefixVal] rest newPos st
  else if isNameChar initial then
    if tok ∈ alwaysBreakTokens then
      let p := breakDedents start lnum st.indents
      .cont (p.1 ++ [mkTok .NAME tok spos st.prefixVal]) rest newPos
        { st with parenLevel := 0, indents := p.2 }
    else
      .cont [mkTok .NAME tok spos st.prefixVal] rest newPos st
  else if initial = '\\' && tok ++ rest = ['\\', '\n'] then
    -- explicit line continuation: consumed silently
    .cont [] rest newPos st
  else
    let pl :=
      if tok = ['('] || tok = ['['] || tok = ['\x7b'] then st.parenLevel + 1
      else if tok = [')'] || tok = [']'] || tok = ['\x7d'] then st.parenLevel - 1
      else st.parenLevel
    .cont [mkTok .OP tok spos st.prefixVal] rest newPos { st with parenLevel := pl }

/-- The body of the inner scanning loop after a successful pseudo-match:
set the prefix, run the fresh-line block, then classify the token. -/
def processMatch (ws tok rest : List Char) (pos : Nat) (st0 : EngState) : ScanOut :=
  let start := pos + ws.length
  let newPos := start + tok.length
  let initial := tok.headD ' '
  let st1 := { st0 with prefixVal := ws }
  let ist := freshLineBlock start (st0.lnum, start) initial st1
  prependToks ist.1 (classifyBranch tok rest start newPos st0.lnum ist.2)

/-- The inner loop `while pos < max` over one line, on the suffix from
column `pos`.  `fuel` bounds the iteration count; every iteration
consumes at least one character, so any `fuel ≥` the suffix length is
adequate (the zero-fuel arm coincides with the exhausted-suffix arm). -/
def scanLoop : Nat → List Char → Nat → EngState → List Token × EngState
  | 0, _, _, st => ([], st)
  | _ + 1, [], _, st => ([], st)
  | fuel + 1, c :: cs, pos, st =>
    match pseudoMatch (c :: cs) with
    | none =>
      -- no match: one error character, or the rest of the line after a quote
      let txt := if c = q2 || c = q1 then c :: cs else [c]
      let p := scanLoop fuel cs (pos + 1) st
      (mkTok .ERRORTOKEN txt (st.lnum, pos) [] :: p.1, p.2)
    | some (ws, tok, rest) =>
      match processMatch ws tok rest pos st with
      | .cont toks rest2 newPos st2 =>
        let p := scanLoop fuel rest2 newPos st2
        (toks ++ p.1, p.2)
      | .stop toks st2 => (toks, st2)

/-- Process one physical line: bump `lnum`; if a continued string is
pending, try its closing pattern from column 0 (on success emit the
accumulated `String` and scan the remainder of the line; on failure
extend the accumulator and produce nothing); otherwise scan normally. -/
def tokLine (st0 : EngState) (line : List Char) : List Token × EngState :=
  let st := { st0 with lnum := st0.lnum + 1 }
  if st.contstr = [] then
    scanLoop line.length line 0 st
  else
    match endProgMatch st.endprog line with
    | some (t, r) =>
      let tok := mkTok .STRING (st.contstr ++ t) st.contstrStart st.prefixVal
      let p := scanLoop line.length r t.length { st with contstr := [] }
      (tok :: p.1, p.2)
    | none =>
      ([], { st with contstr := st.contstr ++ line })

/-- The outer loop over the lines from `readline`; an empty line signals
exhaustion and stops the loop (as `readline` returns the empty string
forever once the source is exhausted). -/
def tokLines : EngState → List (List Char) → List Token × EngState
  | st, [] => ([], st)
  | st, l :: ls =>
    if l = [] then ([], st)
    else
      let p := tokLine st l
      let p2 := tokLines p.2 ls
      (p.1 ++ p2.1, p2.2)

/-- End-of-stream behavior: flush a pending continued string as one
`ErrorToken`, emit one `Dedent` per indentation level above the sentinel
(at column 0), and finish with the single `EndMarker` (which carries the
engine's current — possibly stale — `prefix`). -/
def finishTokens (st : EngState) : List Token :=
  (if st.contstr = [] then []
   else [mkTok .ERRORTOKEN st.contstr st.contstrStart st.prefixVal])
  ++ st.indents.dropLast.map (fun _ => mkTok .DEDENT [] (st.lnum, 0) [])
  ++ [mkTok .ENDMARKER [] (st.lnum, 0) st.prefixVal]

/-- `generate_tokens(readline, line_offset)`: the full token stream for a
list of physical lines. -/
def generate_tokens (lineOffset : Nat) (lines : List (List Char)) : List Token :=
  let p := tokLines (initState lineOffset) lines
  p.1 ++ finishTokens p.2

/-- `StringIO(source).readline` splits after every line feed; a final
fragment without a line feed is a line of its own; no empty lines are
produced. -/
def splitLines : List Char → List (List Char)
  | [] => []
  | c :: cs =>
    if c = '\n' then [c] :: splitLines cs
    else
      match splitLines cs with
      | [] => [[c]]
      | l :: ls => (c :: l) :: ls

/-- The text `source_tokens` actually hands to `generate_tokens`:
`source + '\n'`, appended unconditionally. -/
def handedSource (src : List Char) : List Char := src ++ ['\n']

/-- `source_tokens(source, line_offset)`: append a line feed, wrap the
string into lines, tokenize. -/
def source_tokens (lineOffset : Nat) (src : List Char) : List Token :=
  generate_tokens lineOffset (splitLines (handedSource src))

/-! ## Derived notions used by the claims -/

/-- Number of line feeds in a value. -/
def countNl (v : List Char) : Nat := v.count '\n'

/-- The text after the last line feed of `v` (all of `v` when there is
none). -/
def afterLastNl : List Char → List Char
  | [] => []
  | c :: cs => if (c :: cs).contains '\n' then afterLastNl cs else c :: cs

/-- Count-based characterization of the end position: a value without a
line feed extends the start column; a trailing line feed does not open a
new line (it is folded into the last fragment); otherwise the line
advances by the number of line feeds and the column is the length of the
text after the last one. -/
def endPosSpec (t : Token) : Nat × Nat :=
  if t.value.getLast? = some '\n' then
    let w := t.value.dropLast
    if countNl w = 0 then (t.startLine, t.startCol + t.value.length)
    else (t.startLine + countNl w, (afterLastNl w).length + 1)
  else
    if countNl t.value = 0 then (t.startLine, t.startCol + t.value.length)
    else (t.startLine + countNl t.value, (afterLastNl t.value).length)

/-- The zero-width structural token types excluded from the round trip. -/
def isStructural (ty : TokType) : Bool :=
  ty = .INDENT || ty = .DEDENT || ty = .ENDMARKER

/-- Text contributed by one token to the round trip. -/
def tokText (t : Token) : List Char :=
  if isStructural t.type then [] else t.prefixVal ++ t.value

/-- Concatenation of prefix + value over a token stream, skipping the
zero-width structural tokens. -/
def roundTrip (ts : List Token) : List Char := (ts.map tokText).flatten

/-- Number of tokens of one type in a stream. -/
def countType (ty : TokType) (ts : List Token) : Nat :=
  ts.countP (fun t => t.type = ty)

/-- The per-token facts of the structural-token claim: `Indent` and
`Dedent` carry an empty value and an empty prefix; `EndMarker` carries an
empty value (its prefix may be stale and nonempty); a `NewLine` value is
a literal line terminator. -/
def shapeOk (t : Token) : Prop :=
  (t.type = TokType.INDENT ∨ t.type = TokType.DEDENT → t.value = [] ∧ t.prefixVal = []) ∧
  (t.type = TokType.ENDMARKER → t.value = []) ∧
  (t.type = TokType.NEWLINE → t.value = ['\n'] ∨ t.value = ['\r', '\n'])

/-- Characters of the loss-free fragment of the round trip: word
characters, `[ \f\t]` whitespace, operator characters, `~` and the
punctuation class.  (Comments, quotes, backslashes, brackets and
carriage returns are excluded; they can all make the engine drop or
duplicate text.) -/
def safeChar (c : Char) : Bool :=
  isWordChar c || isWsChar c || isOpChar c || c = '~' || isPunctChar c

/-- A physical line in the loss-free fragment: a body of safe characters
containing at least one non-whitespace character, closed by a line
feed. -/
def safeLineB (l : List Char) : Bool :=
  l.getLast? = some '\n' && l.dropLast.all safeChar &&
    l.dropLast.any (fun c => !isWsChar c)

/-- A line as produced by a `readline`: a line feed can only be its last
character. -/
def validLine (l : List Char) : Bool := l.dropLast.all (fun c => c ≠ '\n')

/-- Number of closing-bracket characters in a piece of text. -/
def closersIn (l : List Char) : Nat :=
  l.countP (fun c => c = ')' || c = ']' || c = '\x7d')

/-- Number of closing-bracket characters in a list of lines. -/
def closersCount (lines : List (List Char)) : Nat := (lines.map closersIn).sum

/-!
# Theorems

First the concrete counterexamples and sample runs, then the helper
lemmas about the matchers, then the universal theorems.
-/

/-! ### Helper lemmas: `splitNl`, `afterLastNl`, `splitLines` -/

theorem splitNl_ne_nil (v : List Char) : splitNl v ≠ [] := by
  match v with
  | [] => simp [splitNl]
  | c :: cs =>
    simp only [splitNl]
    split
    · simp
    · split <;> simp_all

theorem countNl_eq_zero_iff (v : List Char) :
    countNl v = 0 ↔ v.contains '\n' = false := by
  simp [countNl, List.count_eq_zero]

theorem splitNl_cons_nl (cs : List Char) : splitNl ('\n' :: cs) = [] :: splitNl cs := by
  simp [splitNl]

theorem splitNl_cons_other {c : Char} (cs : List Char) (h : c ≠ '\n') {l : List Char}
    {ls : List (List Char)} (hs : splitNl cs = l :: ls) :
    splitNl (c :: cs) = (c :: l) :: ls := by
  simp [splitNl, h, hs]

theorem splitNl_length (v : List Char) : (splitNl v).length = countNl v + 1 := by
  induction v with
  | nil => simp [splitNl, countNl]
  | cons c cs ih =>
    by_cases h : c = '\n'
    · subst h
      have hc : countNl ('\n' :: cs) = countNl cs + 1 := by
        simp [countNl, List.count_cons]
      rw [splitNl_cons_nl, hc]
      simpa using ih
    · have hc : countNl (c :: cs) = countNl cs := by
        have : ¬ ('\n' = c) := fun e => h e.symm
        simp [countNl, List.count_cons, this]
      cases hs : splitNl cs with
      | nil => exact absurd hs (splitNl_ne_nil cs)
      | cons l ls =>
        rw [splitNl_cons_other cs h hs, hc]
        rw [hs] at ih
        simpa using ih

theorem splitNl_no_nl (v : List Char) (h : v.contains '\n' = false) :
    splitNl v = [v] := by
  induction v with
  | nil => simp [splitNl]
  | cons c cs ih =>
    simp only [List.contains_cons, Bool.or_eq_false_iff, beq_eq_false_iff_ne] at h
    exact splitNl_cons_other cs (fun e => h.1 e.symm) (ih h.2)

theorem afterLastNl_cons_pos {c : Char} (cs : List Char)
    (h : (c :: cs).contains '\n' = true) : afterLastNl (c :: cs) = afterLastNl cs := by
  simp only [afterLastNl, h, if_true]

theorem afterLastNl_cons_neg {c : Char} (cs : List Char)
    (h : (c :: cs).contains '\n' = false) : afterLastNl (c :: cs) = c :: cs := by
  simp only [afterLastNl, h]
  simp

theorem splitNl_getLastD (v : List Char) : (splitNl v).getLastD [] = afterLastNl v := by
  induction v with
  | nil => simp [splitNl, afterLastNl]
  | cons c cs ih =>
    by_cases h : c = '\n'
    · subst h
      rw [splitNl_cons_nl, afterLastNl_cons_pos cs (by simp)]
      cases hs : splitNl cs with
      | nil => exact absurd hs (splitNl_ne_nil cs)
      | cons l ls => rw [hs] at ih; simpa using ih
    · by_cases hc : cs.contains '\n' = true
      · have hcc : (c :: cs).contains '\n' = true := by
          simp only [List.contains_cons, hc, Bool.or_true]
        have h2 := splitNl_length cs
        have h0 : countNl cs ≠ 0 := by
          intro e
          rw [countNl_eq_zero_iff] at e
          rw [e] at hc
          exact Bool.false_ne_true hc
        cases hs : splitNl cs with
        | nil => exact absurd hs (splitNl_ne_nil cs)
        | cons l ls =>
          cases ls with
          | nil => rw [hs] at h2; simp at h2; omega
          | cons m ms =>
            rw [splitNl_cons_other cs h hs, afterLastNl_cons_pos cs hcc, ← ih, hs]
            simp [List.getLastD]
      · have hc2 : cs.contains '\n' = false := by
          cases e : cs.contains '\n'
          · rfl
          · exact absurd e hc
        have hcc : (c :: cs).contains '\n' = false := by
          simp only [List.contains_cons, hc2, Bool.or_false, beq_eq_false_iff_ne]
          exact fun e => h e.symm
        rw [splitNl_cons_other cs h (splitNl_no_nl cs hc2), afterLastNl_cons_neg cs hcc]
        simp [List.getLastD]

theorem afterLastNl_no_nl (v : List Char) (h : v.contains '\n' = false) :
    afterLastNl v = v := by
  cases v with
  | nil => simp [afterLastNl]
  | cons c cs => exact afterLastNl_cons_neg cs h

theorem splitNl_concat_nl (w : List Char) :
    splitNl (w ++ ['\n']) = splitNl w ++ [[]] := by
  induction w with
  | nil => simp [splitNl]
  | cons c cs ih =>
    by_cases h : c = '\n'
    · subst h
      rw [List.cons_append, splitNl_cons_nl, splitNl_cons_nl, ih]
      rfl
    · cases hs : splitNl cs with
      | nil => exact absurd hs (splitNl_ne_nil cs)
      | cons l ls =>
        rw [hs] at ih
        rw [List.cons_append, splitNl_cons_other _ h (by rw [ih]; rfl),
          splitNl_cons_other cs h hs]
        rfl

theorem splitLines_cons_nl (cs : List Char) :
    splitLines ('\n' :: cs) = ['\n'] :: splitLines cs := by
  simp [splitLines]

theorem splitLines_cons_other {c : Char} (cs : List Char) (h : c ≠ '\n') {l : List Char}
    {ls : List (List Char)} (hs : splitLines cs = l :: ls) :
    splitLines (c :: cs) = (c :: l) :: ls := by
  simp [splitLines, h, hs]

theorem splitLines_ne_nil (s : List Char) (h : s ≠ []) : splitLines s ≠ [] := by
  match s with
  | c :: cs =>
    simp only [splitLines]
    split
    · simp
    · split <;> simp_all

theorem c4_helper_splitLines (src : List Char) (h : src.getLast? = some '\n') :
    splitLines (src ++ ['\n']) = splitLines src ++ [['\n']] := by
  induction src with
  | nil => simp at h
  | cons c cs ih =>
    cases cs with
    | nil =>
      have hc : c = '\n' := by simpa using h
      subst hc
      rfl
    | cons d ds =>
      have h2 : (d :: ds).getLast? = some '\n' := by
        rw [← List.getLast?_cons_cons]
        exact h
      have ih2 := ih h2
      by_cases hc : c = '\n'
      · subst hc
        rw [List.cons_append, splitLines_cons_nl, ih2, splitLines_cons_nl]
        rfl
      · cases hs : splitLines (d :: ds) with
        | nil => exact absurd hs (splitLines_ne_nil _ (by simp))
        | cons l ls =>
          rw [hs] at ih2
          rw [List.cons_append, splitLines_cons_other _ hc (by rw [ih2]; rfl),
            splitLines_cons_other _ hc hs]
          rfl

/-- C1, counterexample: the round trip is not lossless.  On the single
input line `#c` + line feed the comment text (and generally also the
whitespace before it) is dropped: the emitted stream concatenates to a
bare line feed. -/
theorem c1_roundtrip_counterexample :
    roundTrip (generate_tokens 0 [lc "#c\n"]) ≠ lc "#c\n" := by decide

/-- C2, counterexample: tokenizing `"  pass\nclass X: pass\n"` emits no
`Dedent` token at all, so in particular none immediately before the
`Name(class)` token. -/
theorem c2_no_dedent_counterexample :
    countType .DEDENT (source_tokens 0 (lc "  pass\nclass X: pass\n")) = 0 := by
  decide

/-- C2, amended: on `"  pass\nclass X: pass\n"` the recovery heuristic
pops nothing (the first-line indentation was never pushed, because
indentation is not evaluated on the first line), and the `Name(class)`
token is immediately preceded by the `NewLine` token; the full stream
is as listed. -/
theorem c2_amended_stream :
    source_tokens 0 (lc "  pass\nclass X: pass\n") =
      [mkTok .NAME (lc "pass") (1, 2) (lc "  "),
       mkTok .NEWLINE ['\n'] (1, 6) [],
       mkTok .NAME (lc "class") (2, 0) [],
       mkTok .NAME ['X'] (2, 6) [' '],
       mkTok .OP [':'] (2, 7) [],
       mkTok .NAME (lc "pass") (2, 9) [' '],
       mkTok .NEWLINE ['\n'] (2, 13) [],
       mkTok .ENDMARKER [] (3, 0) []] := by decide

/-- C3, counterexample: a `NewLine` token with value a bare line feed at
`(1, 0)` has end position `(1, 1)`, not `(2, 0)`: the trailing line
feed is folded into the last fragment and does not advance the line. -/
theorem c3_newline_end_pos_counterexample :
    (mkTok .NEWLINE ['\n'] (1, 0) []).end_pos ≠ (2, 0) := by decide

/-- C3, amended: the derived end position, characterized by counting
line feeds.  If the value has no line feed, the end is
`(start-line, start-col + length)`.  If it has `N ≥ 1` line feeds and
does not end with one, the end is `(start-line + N, length of the text
after the last line feed)`.  A *trailing* line feed however does not
open a new line: it is folded into the last fragment, so a value with
`N` line feeds ending in one ends at `(start-line + N - 1)` with the
folded fragment length as column — in particular a `NewLine` token with
a bare line-feed value at `(l, c)` ends at `(l, c + 1)`, not
`(l + 1, 0)`. -/
theorem c3_end_pos_characterization (t : Token) : t.end_pos = endPosSpec t := by
  by_cases h : t.value.getLast? = some '\n'
  · have hne : t.value ≠ [] := by intro e; rw [e] at h; simp at h
    have hlast : t.value.getLast hne = '\n' := by
      have h2 := List.getLast?_eq_getLast t.value hne
      rw [h2] at h
      exact Option.some.inj h
    have hv : t.value.dropLast ++ ['\n'] = t.value := by
      conv_rhs => rw [← List.dropLast_append_getLast hne]
      rw [hlast]
    have hsplit : splitNl t.value = splitNl t.value.dropLast ++ [[]] := by
      conv_lhs => rw [← hv]
      exact splitNl_concat_nl _
    have hlen : t.value.length = t.value.dropLast.length + 1 := by
      conv_lhs => rw [← hv]
      simp
    have hwne := splitNl_ne_nil t.value.dropLast
    have hwlen := splitNl_length t.value.dropLast
    simp only [Token.end_pos, endPosSpec, h, if_pos, hsplit, List.dropLast_concat,
      splitNl_getLastD, List.length_append, List.length_dropLast]
    rw [List.getLastD_eq_getLast? _ _, List.getLast?_concat]
    have e1 : (splitNl t.value.dropLast).length - 1 +
        [afterLastNl t.value.dropLast ++ ['\n']].length - 1 = countNl t.value.dropLast := by
      rw [hwlen]; simp
    have e2 : ((some (afterLastNl t.value.dropLast ++ ['\n'])).getD []).length
        = (afterLastNl t.value.dropLast).length + 1 := by simp
    rw [e1, e2]
    by_cases h0 : countNl t.value.dropLast = 0
    · have hall := afterLastNl_no_nl _ ((countNl_eq_zero_iff _).mp h0)
      rw [h0, hall, hlen]
      simp
    · have hne2 : t.startLine ≠ t.startLine + countNl t.value.dropLast := by
        have := Nat.pos_of_ne_zero h0
        omega
      rw [if_neg hne2, if_neg h0]
  · have hwlen := splitNl_length t.value
    simp only [Token.end_pos, endPosSpec, h, if_neg, if_false, splitNl_getLastD]
    have e1 : (splitNl t.value).length - 1 = countNl t.value := by rw [hwlen]; simp
    rw [e1]
    by_cases h0 : countNl t.value = 0
    · have hall := afterLastNl_no_nl _ ((countNl_eq_zero_iff _).mp h0)
      rw [h0, hall]
      simp
    · have hne2 : t.startLine ≠ t.startLine + countNl t.value := by
        have := Nat.pos_of_ne_zero h0
        omega
      rw [if_neg hne2, if_neg h0]

/-- C4, amended: `source_tokens` appends the line terminator
unconditionally, so a source that already ends in one is handed an
extra, empty physical line: its line list gains exactly one bare
line-feed line at the end. -/
theorem c4_amended_extra_empty_line (src : List Char) (h : src.getLast? = some '\n') :
    splitLines (handedSource src) = splitLines src ++ [['\n']] :=
  c4_helper_splitLines src h

/-- C4, witness for the amended theorem at the source `"a\n"`. -/
theorem c4_amended_witness :
    (lc "a\n").getLast? = some '\n' ∧
      splitLines (handedSource (lc "a\n")) = splitLines (lc "a\n") ++ [['\n']] :=
  ⟨by decide, c4_amended_extra_empty_line (lc "a\n") (by decide)⟩

/-- C4, counterexample: the whole-string entry point appends a line feed
unconditionally, so a source already ending in one is not handed on
unchanged. -/
theorem c4_unconditional_append_counterexample :
    handedSource (lc "a\n") ≠ lc "a\n" := by decide

/-- C5, counterexample: a closing bracket with no matching opener drives
the nesting counter to `-1`. -/
theorem c5_negative_paren_counterexample :
    (tokLines (initState 0) [[')', '\n']]).2.parenLevel = -1 := by decide

/-- C6, counterexample: the `EndMarker` token carries the engine's stale
prefix, which is the last-scanned whitespace run and need not be empty. -/
theorem c6_endmarker_prefix_counterexample :
    ∃ t ∈ generate_tokens 0 [['x', ' ', '\n']],
      t.type = .ENDMARKER ∧ t.prefixVal ≠ [] := by decide

/-! ### Soundness of the matchers: a match tiles its input and is
nonempty.  These lemmas carry the progress argument of the engine. -/

theorem altM_eq_some {α : Type} {a b : Option α} {x : α} (h : altM a b = some x) :
    a = some x ∨ (a = none ∧ b = some x) := by
  cases a with
  | some y => exact Or.inl h
  | none => exact Or.inr ⟨rfl, h⟩

theorem matchOpt_sound (p : Char → Bool) (s : List Char) :
    (matchOpt p s).1 ++ (matchOpt p s).2 = s := by
  cases s with
  | nil => rfl
  | cons c cs => by_cases h : p c <;> simp [matchOpt, h]

/-- Tiling shape used all over the matchers: a literal head plus a
greedy run, followed by the run's complement. -/
theorem append_take_drop (A : List Char) (p : Char → Bool) (l : List Char) :
    (A ++ l.takeWhile p) ++ l.dropWhile p = A ++ l := by
  rw [List.append_assoc, List.takeWhile_append_dropWhile]

theorem matchBackslashNl_sound {s t r : List Char}
    (h : matchBackslashNl s = some (t, r)) : t ++ r = s ∧ t ≠ [] := by
  unfold matchBackslashNl at h
  split at h
  all_goals
    first
    | exact Option.noConfusion h
    | (simp only [Option.some.injEq, Prod.mk.injEq] at h
       obtain ⟨ht, hr⟩ := h
       subst ht; subst hr
       exact ⟨rfl, by simp⟩)

theorem matchComment_sound {s t r : List Char}
    (h : matchComment s = some (t, r)) : t ++ r = s ∧ t ≠ [] := by
  unfold matchComment at h
  split at h
  all_goals
    first
    | exact Option.noConfusion h
    | (simp only [Option.some.injEq, Prod.mk.injEq] at h
       obtain ⟨ht, hr⟩ := h
       subst ht; subst hr
       exact ⟨append_take_drop [_] _ _, by simp⟩)

theorem matchTripleQ_sound {q : Char} {s t r : List Char}
    (h : matchTripleQ q s = some (t, r)) : t ++ r = s ∧ t ≠ [] := by
  unfold matchTripleQ at h
  simp only [] at h
  set m1 := matchOpt (fun c => c = 'b' || c = 'B') s with hm1
  set m2 := matchOpt (fun c => c = 'r' || c = 'R') m1.2 with hm2
  have h1 : m1.1 ++ m1.2 = s := matchOpt_sound _ s
  have h2 : m2.1 ++ m2.2 = m1.2 := matchOpt_sound _ m1.2
  split at h
  · rename_i c1 c2 c3 r2 heq
    split at h
    · rename_i hcond
      simp only [Option.some.injEq, Prod.mk.injEq] at h
      obtain ⟨ht, hr⟩ := h
      subst ht; subst hr
      simp only [Bool.and_eq_true, decide_eq_true_eq] at hcond
      have e1 : c1 = q := by tauto
      have e2 : c2 = q := by tauto
      have e3 : c3 = q := by tauto
      rw [e1, e2, e3] at heq
      refine ⟨?_, by simp⟩
      have hA : m2.1 ++ (q :: q :: q :: r2) = m1.2 := by rw [← heq]; exact h2
      have hB : m1.1 ++ (m2.1 ++ (q :: q :: q :: r2)) = s := by rw [hA]; exact h1
      calc (m1.1 ++ m2.1 ++ [q, q, q]) ++ r2
          = m1.1 ++ (m2.1 ++ (q :: q :: q :: r2)) := by simp
        _ = s := hB
    · exact Option.noConfusion h
  · exact Option.noConfusion h

theorem matchTriple_sound {s t r : List Char}
    (h : matchTriple s = some (t, r)) : t ++ r = s ∧ t ≠ [] := by
  rcases altM_eq_some h with h2 | ⟨_, h2⟩ <;> exact matchTripleQ_sound h2

theorem matchExponent_sound {s t r : List Char}
    (h : matchExponent s = some (t, r)) : t ++ r = s ∧ t ≠ [] := by
  unfold matchExponent at h
  repeat' split at h
  all_goals
    first
    | exact Option.noConfusion h
    | (simp only [Option.some.injEq, Prod.mk.injEq] at h
       obtain ⟨ht, hr⟩ := h
       subst ht; subst hr
       exact ⟨append_take_drop [_, _] _ _, by simp⟩)
    | (simp only [Option.some.injEq, Prod.mk.injEq] at h
       obtain ⟨ht, hr⟩ := h
       subst ht; subst hr
       exact ⟨append_take_drop [_] _ _, by simp⟩)

theorem requireJ_sound {t0 s t r : List Char}
    (h : requireJ t0 s = some (t, r)) : t ++ r = t0 ++ s ∧ t ≠ [] := by
  unfold requireJ at h
  repeat' split at h
  all_goals
    first
    | exact Option.noConfusion h
    | (simp only [Option.some.injEq, Prod.mk.injEq] at h
       obtain ⟨ht, hr⟩ := h
       subst ht; subst hr
       exact ⟨by simp, by simp⟩)

/-- Tiling shape of the `[0-9]+\.[0-9]*exponent` alternative. -/
theorem float_shape1 {s rest2 e rest4 : List Char}
    (heq : s.dropWhile isDigitChar = '.' :: rest2)
    (hx1 : e ++ rest4 = rest2.dropWhile isDigitChar) :
    (s.takeWhile isDigitChar ++ '.' :: (rest2.takeWhile isDigitChar ++ e)) ++ rest4 = s := by
  conv_rhs =>
    rw [← List.takeWhile_append_dropWhile (p := isDigitChar) (l := s), heq,
      ← List.takeWhile_append_dropWhile (p := isDigitChar) (l := rest2), ← hx1]
  simp

/-- Tiling shape of the `[0-9]+\.[0-9]*` alternative without exponent. -/
theorem float_shape2 {s rest2 : List Char}
    (heq : s.dropWhile isDigitChar = '.' :: rest2) :
    (s.takeWhile isDigitChar ++ '.' :: rest2.takeWhile isDigitChar)
      ++ rest2.dropWhile isDigitChar = s := by
  conv_rhs =>
    rw [← List.takeWhile_append_dropWhile (p := isDigitChar) (l := s), heq,
      ← List.takeWhile_append_dropWhile (p := isDigitChar) (l := rest2)]
  simp

/-- Tiling shape of the `\.[0-9]+exponent` alternative. -/
theorem float_shape3 {rest e r2 : List Char}
    (hx1 : e ++ r2 = rest.dropWhile isDigitChar) :
    ('.' :: (rest.takeWhile isDigitChar ++ e)) ++ r2 = '.' :: rest := by
  conv_rhs =>
    rw [← List.takeWhile_append_dropWhile (p := isDigitChar) (l := rest), ← hx1]
  simp

/-- Tiling shape of the `[0-9]+exponent` alternative. -/
theorem float_shape4 {s e r2 : List Char}
    (hx1 : e ++ r2 = s.dropWhile isDigitChar) :
    (s.takeWhile isDigitChar ++ e) ++ r2 = s := by
  conv_rhs =>
    rw [← List.takeWhile_append_dropWhile (p := isDigitChar) (l := s), ← hx1]
  simp

theorem matchFloat_sound {s t r : List Char}
    (h : matchFloat s = some (t, r)) : t ++ r = s ∧ t ≠ [] := by
  unfold matchFloat at h
  rcases altM_eq_some h with h2 | ⟨hnone, h2⟩
  · repeat' (first | split at h2 | simp only [] at h2)
    · exact Option.noConfusion h2
    · simp only [Option.some.injEq, Prod.mk.injEq] at h2
      obtain ⟨ht, hr⟩ := h2
      subst ht; subst hr
      refine ⟨?_, by simp⟩
      exact float_shape1 (by assumption) (matchExponent_sound (by assumption)).1
    · simp only [Option.some.injEq, Prod.mk.injEq] at h2
      obtain ⟨ht, hr⟩ := h2
      subst ht; subst hr
      refine ⟨?_, by simp⟩
      exact float_shape2 (by assumption)
    · exact Option.noConfusion h2
  · rcases altM_eq_some h2 with h3 | ⟨hnone2, h3⟩
    · repeat' (first | split at h3 | simp only [] at h3)
      · exact Option.noConfusion h3
      · simp only [Option.some.injEq, Prod.mk.injEq] at h3
        obtain ⟨ht, hr⟩ := h3
        subst ht; subst hr
        refine ⟨?_, by simp⟩
        exact float_shape3 (matchExponent_sound (by assumption)).1
      · simp only [Option.some.injEq, Prod.mk.injEq] at h3
        obtain ⟨ht, hr⟩ := h3
        subst ht; subst hr
        refine ⟨?_, by simp⟩
        exact append_take_drop [_] _ _
      · exact Option.noConfusion h3
    · repeat' (first | split at h3 | simp only [] at h3)
      · exact Option.noConfusion h3
      · simp only [Option.some.injEq, Prod.mk.injEq] at h3
        obtain ⟨ht, hr⟩ := h3
        subst ht; subst hr
        refine ⟨float_shape4 (matchExponent_sound (by assumption)).1,
          by simp [(matchExponent_sound (by assumption)).2]⟩
      · exact Option.noConfusion h3

theorem matchImag_sound {s t r : List Char}
    (h : matchImag s = some (t, r)) : t ++ r = s ∧ t ≠ [] := by
  unfold matchImag at h
  rcases altM_eq_some h with h2 | ⟨hn1, h2⟩
  · split at h2
    · exact Option.noConfusion h2
    · obtain ⟨ht, htne⟩ := requireJ_sound h2
      refine ⟨?_, htne⟩
      rw [ht]
      exact List.takeWhile_append_dropWhile _ _
  · rcases altM_eq_some h2 with h3 | ⟨hn2, h3⟩
    · repeat' (first | split at h3 | simp only [] at h3)
      · exact Option.noConfusion h3
      · obtain ⟨ht, htne⟩ := requireJ_sound h3
        refine ⟨?_, htne⟩
        rw [ht]
        exact float_shape1 (by assumption) (matchExponent_sound (by assumption)).1
      · obtain ⟨ht, htne⟩ := requireJ_sound h3
        refine ⟨?_, htne⟩
        rw [ht]
        exact float_shape2 (by assumption)
      · exact Option.noConfusion h3
    · rcases altM_eq_some h3 with h4 | ⟨hn3, h4⟩
      · repeat' (first | split at h4 | simp only [] at h4)
        · exact Option.noConfusion h4
        · obtain ⟨ht, htne⟩ := requireJ_sound h4
          refine ⟨?_, htne⟩
          rw [ht]
          exact float_shape3 (matchExponent_sound (by assumption)).1
        · obtain ⟨ht, htne⟩ := requireJ_sound h4
          refine ⟨?_, htne⟩
          rw [ht]
          exact append_take_drop [_] _ _
        · exact Option.noConfusion h4
      · repeat' (first | split at h4 | simp only [] at h4)
        · exact Option.noConfusion h4
        · obtain ⟨ht, htne⟩ := requireJ_sound h4
          refine ⟨?_, htne⟩
          rw [ht]
          exact float_shape4 (matchExponent_sound (by assumption)).1
        · exact Option.noConfusion h4

theorem matchInt_sound {s t r : List Char}
    (h : matchInt s = some (t, r)) : t ++ r = s ∧ t ≠ [] := by
  unfold matchInt at h
  rcases altM_eq_some h with h2 | ⟨hn1, h2⟩
  · repeat' split at h2
    all_goals
      first
      | exact Option.noConfusion h2
      | (simp only [Option.some.injEq, Prod.mk.injEq] at h2
         obtain ⟨ht, hr⟩ := h2
         subst ht; subst hr
         exact ⟨append_take_drop [_, _] _ _, by simp⟩)
  · rcases altM_eq_some h2 with h3 | ⟨hn2, h3⟩
    · repeat' split at h3
      all_goals
        first
        | exact Option.noConfusion h3
        | (simp only [Option.some.injEq, Prod.mk.injEq] at h3
           obtain ⟨ht, hr⟩ := h3
           subst ht; subst hr
           exact ⟨append_take_drop [_, _] _ _, by simp⟩)
    · rcases altM_eq_some h3 with h4 | ⟨hn3, h4⟩
      · repeat' split at h4
        all_goals
          first
          | exact Option.noConfusion h4
          | (simp only [Option.some.injEq, Prod.mk.injEq] at h4
             obtain ⟨ht, hr⟩ := h4
             subst ht; subst hr
             exact ⟨append_take_drop [_, _] _ _, by simp⟩)
      · repeat' split at h4
        all_goals
          first
          | exact Option.noConfusion h4
          | (simp only [Option.some.injEq, Prod.mk.injEq] at h4
             obtain ⟨ht, hr⟩ := h4
             subst ht; subst hr
             refine ⟨List.takeWhile_append_dropWhile _ _, ?_⟩
             simp [List.takeWhile_cons])
          | (simp only [Option.some.injEq, Prod.mk.injEq] at h4
             obtain ⟨ht, hr⟩ := h4
             subst ht; subst hr
             exact ⟨append_take_drop [_] _ _, by simp⟩)

theorem matchNumber_sound {s t r : List Char}
    (h : matchNumber s = some (t, r)) : t ++ r = s ∧ t ≠ [] := by
  unfold matchNumber at h
  rcases altM_eq_some h with h2 | ⟨hn1, h2⟩
  · exact matchImag_sound h2
  · rcases altM_eq_some h2 with h3 | ⟨hn2, h3⟩
    · exact matchFloat_sound h3
    · exact matchInt_sound h3

theorem matchOperator_sound {s t r : List Char}
    (h : matchOperator s = some (t, r)) : t ++ r = s ∧ t ≠ [] := by
  unfold matchOperator at h
  repeat' split at h
  all_goals
    first
    | exact Option.noConfusion h
    | (simp only [Option.some.injEq, Prod.mk.injEq] at h
       obtain ⟨ht, hr⟩ := h
       subst ht; subst hr
       refine ⟨?_, by simp⟩
       simp_all)

theorem matchBracket_sound {s t r : List Char}
    (h : matchBracket s = some (t, r)) : t ++ r = s ∧ t ≠ [] := by
  unfold matchBracket at h
  repeat' split at h
  all_goals
    first
    | exact Option.noConfusion h
    | (simp only [Option.some.injEq, Prod.mk.injEq] at h
       obtain ⟨ht, hr⟩ := h
       subst ht; subst hr
       exact ⟨rfl, by simp⟩)

theorem matchSpecial_sound {s t r : List Char}
    (h : matchSpecial s = some (t, r)) : t ++ r = s ∧ t ≠ [] := by
  unfold matchSpecial at h
  repeat' split at h
  all_goals
    first
    | exact Option.noConfusion h
    | (simp only [Option.some.injEq, Prod.mk.injEq] at h
       obtain ⟨ht, hr⟩ := h
       subst ht; subst hr
       exact ⟨rfl, by simp⟩)

theorem matchFunny_sound {s t r : List Char}
    (h : matchFunny s = some (t, r)) : t ++ r = s ∧ t ≠ [] := by
  unfold matchFunny at h
  rcases altM_eq_some h with h2 | ⟨hn1, h2⟩
  · exact matchOperator_sound h2
  · rcases altM_eq_some h2 with h3 | ⟨hn2, h3⟩
    · exact matchBracket_sound h3
    · exact matchSpecial_sound h3

theorem contStrBody_sound {q : Char} : ∀ {s t r : List Char},
    contStrBody q s = some (t, r) → t ++ r = s ∧ t ≠ [] := by
  intro s
  induction s using contStrBody.induct q with
  | case1 =>
    intro t r h
    exact Option.noConfusion h
  | case2 cs =>
    intro t r h
    rw [contStrBody.eq_def] at h
    simp at h
    obtain ⟨ht, hr⟩ := h
    subst ht; subst hr
    exact ⟨rfl, by simp⟩
  | case3 r2 hq =>
    intro t r h
    rw [contStrBody.eq_def] at h
    simp [hq] at h
    obtain ⟨ht, hr⟩ := h
    subst ht; subst hr
    exact ⟨rfl, by simp⟩
  | case4 r2 hq =>
    intro t r h
    rw [contStrBody.eq_def] at h
    simp [hq] at h
    obtain ⟨ht, hr⟩ := h
    subst ht; subst hr
    exact ⟨rfl, by simp⟩
  | case5 r2 hq hcontra hother =>
    exact absurd rfl hcontra
  | case6 c2 r2 hA hB hc2 hq ih =>
    intro t r h
    rw [contStrBody.eq_def] at h
    simp only [hq, hc2] at h
    repeat' split at h
    all_goals
      first
      | exact Option.noConfusion h
      | exact (by assumption : False).elim
      | exact absurd trivial (by assumption)
      | (exfalso; exact hB _ (by assumption) (by assumption))
      | (rw [Option.map_eq_some'] at h
         obtain ⟨p, hp, hfp⟩ := h
         obtain ⟨hp1, hp2⟩ := ih hp
         simp only [Prod.mk.injEq] at hfp
         obtain ⟨ht, hr⟩ := hfp
         subst ht; subst hr
         refine ⟨?_, by simp⟩
         simp [← hp1])
  | case7 hq =>
    intro t r h
    rw [contStrBody.eq_def] at h
    simp [hq] at h
  | case8 cs hq hb =>
    intro t r h
    rw [contStrBody.eq_def] at h
    simp [hq, hb] at h
  | case9 c cs hcq hcb hcn ih =>
    intro t r h
    rw [contStrBody.eq_def] at h
    simp only [hcq, hcb, hcn] at h
    repeat' split at h
    all_goals
      first
      | exact Option.noConfusion h
      | exact (by assumption : False).elim
      | exact absurd trivial (by assumption)
      | (rw [Option.map_eq_some'] at h
         obtain ⟨p, hp, hfp⟩ := h
         obtain ⟨hp1, hp2⟩ := ih hp
         simp only [Prod.mk.injEq] at hfp
         obtain ⟨ht, hr⟩ := hfp
         subst ht; subst hr
         refine ⟨?_, by simp⟩
         simp [← hp1])

theorem matchContStrQ_sound {q : Char} {s t r : List Char}
    (h : matchContStrQ q s = some (t, r)) : t ++ r = s ∧ t ≠ [] := by
  unfold matchContStrQ at h
  simp only [] at h
  set m1 := matchOpt (fun c => c = 'b' || c = 'B' || c = 'u' || c = 'U') s with hm1
  set m2 := matchOpt (fun c => c = 'r' || c = 'R') m1.2 with hm2
  have h1 : m1.1 ++ m1.2 = s := matchOpt_sound _ s
  have h2 : m2.1 ++ m2.2 = m1.2 := matchOpt_sound _ m1.2
  split at h
  · rename_i c rest heq
    split at h
    · rename_i hc
      subst hc
      rw [Option.map_eq_some'] at h
      obtain ⟨p, hp, hfp⟩ := h
      obtain ⟨hp1, hp2⟩ := contStrBody_sound hp
      simp only [Prod.mk.injEq] at hfp
      obtain ⟨ht, hr⟩ := hfp
      subst ht; subst hr
      refine ⟨?_, by simp⟩
      have hA : m2.1 ++ (c :: rest) = m1.2 := by rw [← heq]; exact h2
      have hB : m1.1 ++ (m2.1 ++ (c :: rest)) = s := by rw [hA]; exact h1
      rw [← hp1] at hB
      calc (m1.1 ++ m2.1 ++ c :: p.1) ++ p.2
          = m1.1 ++ (m2.1 ++ (c :: (p.1 ++ p.2))) := by simp
        _ = s := hB
    · exact Option.noConfusion h
  · exact Option.noConfusion h

theorem matchContStr_sound {s t r : List Char}
    (h : matchContStr s = some (t, r)) : t ++ r = s ∧ t ≠ [] := by
  rcases altM_eq_some h with h2 | ⟨_, h2⟩ <;> exact matchContStrQ_sound h2

theorem matchName_sound {s t r : List Char}
    (h : matchName s = some (t, r)) : t ++ r = s ∧ t ≠ [] := by
  unfold matchName at h
  split at h
  · exact Option.noConfusion h
  · rename_i hne
    simp only [Option.some.injEq, Prod.mk.injEq] at h
    obtain ⟨ht, hr⟩ := h
    subst ht; subst hr
    exact ⟨List.takeWhile_append_dropWhile _ _, hne⟩

theorem matchGroup2_sound {s t r : List Char}
    (h : matchGroup2 s = some (t, r)) : t ++ r = s ∧ t ≠ [] := by
  unfold matchGroup2 at h
  rcases altM_eq_some h with h1 | ⟨_, h1⟩
  · exact matchBackslashNl_sound h1
  · rcases altM_eq_some h1 with h2 | ⟨_, h2⟩
    · exact matchComment_sound h2
    · rcases altM_eq_some h2 with h3 | ⟨_, h3⟩
      · exact matchTriple_sound h3
      · rcases altM_eq_some h3 with h4 | ⟨_, h4⟩
        · exact matchNumber_sound h4
        · rcases altM_eq_some h4 with h5 | ⟨_, h5⟩
          · exact matchFunny_sound h5
          · rcases altM_eq_some h5 with h6 | ⟨_, h6⟩
            · exact matchContStr_sound h6
            · exact matchName_sound h6

theorem pseudoMatch_sound {s ws tok rest : List Char}
    (h : pseudoMatch s = some (ws, tok, rest)) :
    ws = s.takeWhile isWsChar ∧ tok ++ rest = s.dropWhile isWsChar ∧ tok ≠ [] ∧
      ws ++ (tok ++ rest) = s := by
  unfold pseudoMatch at h
  simp only [] at h
  rw [Option.map_eq_some'] at h
  obtain ⟨p, hp, hfp⟩ := h
  obtain ⟨h1, h2⟩ := matchGroup2_sound hp
  simp only [Prod.mk.injEq] at hfp
  obtain ⟨hw, ht, hr⟩ := hfp
  subst hw; subst ht; subst hr
  refine ⟨rfl, h1, h2, ?_⟩
  rw [h1, List.takeWhile_append_dropWhile]

theorem endSingle_sound {q : Char} : ∀ {s t r : List Char},
    endSingle q s = some (t, r) → t ++ r = s ∧ t ≠ [] := by
  intro s
  induction s using endSingle.induct q with
  | case1 =>
    intro t r h
    exact Option.noConfusion h
  | case2 cs =>
    intro t r h
    rw [endSingle.eq_def] at h
    simp at h
    obtain ⟨ht, hr⟩ := h
    subst ht; subst hr
    exact ⟨rfl, by simp⟩
  | case3 rest2 hq =>
    intro t r h
    rw [endSingle.eq_def] at h
    simp [hq] at h
  | case4 c2 rest2 hc2 hq ih =>
    intro t r h
    rw [endSingle.eq_def] at h
    simp only [hq, hc2] at h
    repeat' split at h
    all_goals
      first
      | exact Option.noConfusion h
      | exact (by assumption : False).elim
      | exact absurd trivial (by assumption)
      | (rw [Option.map_eq_some'] at h
         obtain ⟨p, hp, hfp⟩ := h
         obtain ⟨hp1, hp2⟩ := ih hp
         simp only [Prod.mk.injEq] at hfp
         obtain ⟨ht, hr⟩ := hfp
         subst ht; subst hr
         refine ⟨?_, by simp⟩
         simp [← hp1])
  | case5 hq =>
    intro t r h
    rw [endSingle.eq_def] at h
    simp [hq] at h
  | case6 c cs hcq hcb ih =>
    intro t r h
    rw [endSingle.eq_def] at h
    simp only [hcq, hcb] at h
    repeat' split at h
    all_goals
      first
      | exact Option.noConfusion h
      | exact (by assumption : False).elim
      | exact absurd trivial (by assumption)
      | (rw [Option.map_eq_some'] at h
         obtain ⟨p, hp, hfp⟩ := h
         obtain ⟨hp1, hp2⟩ := ih hp
         simp only [Prod.mk.injEq] at hfp
         obtain ⟨ht, hr⟩ := hfp
         subst ht; subst hr
         refine ⟨?_, by simp⟩
         simp [← hp1])

theorem endTriple_sound {q : Char} : ∀ {s t r : List Char},
    endTriple q s = some (t, r) → t ++ r = s ∧ t ≠ [] := by
  intro s
  induction s using endTriple.induct q with
  | case1 =>
    intro t r h
    exact Option.noConfusion h
  | case2 c2 c3 r2 hcond =>
    intro t r h
    rw [endTriple.eq_def] at h
    simp only [Bool.and_eq_true, decide_eq_true_eq] at hcond
    obtain ⟨e2, e3⟩ := hcond
    subst e2; subst e3
    simp at h
    obtain ⟨ht, hr⟩ := h
    subst ht; subst hr
    exact ⟨rfl, by simp⟩
  | case3 c2 c3 r2 hcond ih =>
    intro t r h
    rw [endTriple.eq_def] at h
    simp only [if_pos rfl] at h
    repeat' split at h
    all_goals
      first
      | exact Option.noConfusion h
      | exact (by assumption : False).elim
      | exact absurd trivial (by assumption)
      | exact absurd (by assumption) hcond
      | (rw [Option.map_eq_some'] at h
         obtain ⟨p, hp, hfp⟩ := h
         obtain ⟨hp1, hp2⟩ := ih hp
         simp only [Prod.mk.injEq] at hfp
         obtain ⟨ht, hr⟩ := hfp
         subst ht; subst hr
         refine ⟨?_, by simp⟩
         simp [← hp1])
  | case4 cs hshape ih =>
    intro t r h
    rw [endTriple.eq_def] at h
    simp only [if_pos rfl] at h
    repeat' split at h
    all_goals
      first
      | exact Option.noConfusion h
      | exact (by assumption : False).elim
      | exact absurd trivial (by assumption)
      | exact absurd (by assumption) (by intro e; exact hshape _ _ _ e)
      | (exfalso; exact hshape _ _ _ (by assumption))
      | (rw [Option.map_eq_some'] at h
         obtain ⟨p, hp, hfp⟩ := h
         obtain ⟨hp1, hp2⟩ := ih hp
         simp only [Prod.mk.injEq] at hfp
         obtain ⟨ht, hr⟩ := hfp
         subst ht; subst hr
         refine ⟨?_, by simp⟩
         simp [← hp1])
  | case5 rest2 hq =>
    intro t r h
    rw [endTriple.eq_def] at h
    simp [hq] at h
  | case6 c2 rest2 hc2 hq ih =>
    intro t r h
    rw [endTriple.eq_def] at h
    simp only [hq, hc2] at h
    repeat' split at h
    all_goals
      first
      | exact Option.noConfusion h
      | exact (by assumption : False).elim
      | exact absurd trivial (by assumption)
      | (rw [Option.map_eq_some'] at h
         obtain ⟨p, hp, hfp⟩ := h
         obtain ⟨hp1, hp2⟩ := ih hp
         simp only [Prod.mk.injEq] at hfp
         obtain ⟨ht, hr⟩ := hfp
         subst ht; subst hr
         refine ⟨?_, by simp⟩
         simp [← hp1])
  | case7 hq =>
    intro t r h
    rw [endTriple.eq_def] at h
    simp [hq] at h
  | case8 c cs hcq hcb ih =>
    intro t r h
    rw [endTriple.eq_def] at h
    simp only [hcq, hcb] at h
    repeat' split at h
    all_goals
      first
      | exact Option.noConfusion h
      | exact (by assumption : False).elim
      | exact absurd trivial (by assumption)
      | (rw [Option.map_eq_some'] at h
         obtain ⟨p, hp, hfp⟩ := h
         obtain ⟨hp1, hp2⟩ := ih hp
         simp only [Prod.mk.injEq] at hfp
         obtain ⟨ht, hr⟩ := hfp
         subst ht; subst hr
         refine ⟨?_, by simp⟩
         simp [← hp1])

theorem endProgMatch_sound {ep : EndProg} {s t r : List Char}
    (h : endProgMatch ep s = some (t, r)) : t ++ r = s ∧ t ≠ [] := by
  cases ep with
  | singleQ => exact endSingle_sound h
  | doubleQ => exact endSingle_sound h
  | single3 => exact endTriple_sound h
  | double3 => exact endTriple_sound h

/-! ### Progress of the inner loop (C9) -/

theorem prependToks_cont {ts : List Token} {o : ScanOut} {toks : List Token}
    {rest2 : List Char} {np2 : Nat} {st2 : EngState}
    (h : prependToks ts o = .cont toks rest2 np2 st2) :
    ∃ toks0, o = .cont toks0 rest2 np2 st2 ∧ toks = ts ++ toks0 := by
  cases o <;> simp_all [prependToks]

theorem prependToks_stop {ts : List Token} {o : ScanOut} {toks : List Token}
    {st2 : EngState} (h : prependToks ts o = .stop toks st2) :
    ∃ toks0, o = .stop toks0 st2 ∧ toks = ts ++ toks0 := by
  cases o <;> simp_all [prependToks]

theorem classifyBranch_cont_rest {tok rest : List Char} {start newPos lnum : Nat}
    {st : EngState} {toks : List Token} {rest2 : List Char} {np2 : Nat} {st2 : EngState}
    (hp : classifyBranch tok rest start newPos lnum st = .cont toks rest2 np2 st2) :
    rest2.length ≤ rest.length := by
  simp only [classifyBranch] at hp
  repeat' split at hp
  all_goals
    first
    | exact ScanOut.noConfusion hp
    | (simp only [ScanOut.cont.injEq] at hp
       obtain ⟨_, hr, _, _⟩ := hp
       subst hr
       exact le_refl _)
    | (simp only [ScanOut.cont.injEq] at hp
       obtain ⟨_, hr, _, _⟩ := hp
       subst hr
       have h3 : _ ++ _ = rest := (endProgMatch_sound (by assumption)).1
       have h4 := congrArg List.length h3
       simp only [List.length_append] at h4
       omega)

theorem processMatch_cont_rest {ws tok rest : List Char} {pos : Nat} {st : EngState}
    {toks : List Token} {rest2 : List Char} {newPos : Nat} {st2 : EngState}
    (hp : processMatch ws tok rest pos st = .cont toks rest2 newPos st2) :
    rest2.length ≤ rest.length := by
  unfold processMatch at hp
  simp only [] at hp
  obtain ⟨toks0, ho, -⟩ := prependToks_cont hp
  exact classifyBranch_cont_rest ho

/-- One successful pseudo-match consumes at least one character. -/
theorem pseudoMatch_progress {s ws tok rest : List Char}
    (h : pseudoMatch s = some (ws, tok, rest)) : rest.length < s.length := by
  obtain ⟨hw, ht, htne, hall⟩ := pseudoMatch_sound h
  have : (ws ++ (tok ++ rest)).length = s.length := by rw [hall]
  simp only [List.length_append] at this
  cases tok with
  | nil => exact absurd rfl htne
  | cons a b => simp at this; omega

/-- C9: the scanner makes strict forward progress, so the inner loop is
insensitive to its fuel once the fuel covers the remaining characters.
Conjunct 1: a successful pseudo-match consumes at least one character
(the no-match path consumes exactly one by construction of `scanLoop`).
Conjunct 2: the inner loop computes the same tokens and state with any
adequate fuel, i.e. it terminates within one iteration per remaining
character; the outer loop is structural recursion over the finite line
list, so every finite input yields a finite token sequence. -/
theorem c9_progress_and_fuel_adequacy :
    (∀ (s ws tok rest : List Char), pseudoMatch s = some (ws, tok, rest) →
      rest.length < s.length) ∧
    (∀ (f1 f2 : Nat) (s : List Char) (pos : Nat) (st : EngState),
      s.length ≤ f1 → s.length ≤ f2 → scanLoop f1 s pos st = scanLoop f2 s pos st) := by
  constructor
  · intro s ws tok rest h
    exact pseudoMatch_progress h
  · intro f1
    induction f1 with
    | zero =>
      intro f2 s pos st h1 h2
      have hs : s = [] := List.eq_nil_of_length_eq_zero (Nat.le_zero.mp h1)
      subst hs
      cases f2 <;> rfl
    | succ f ih =>
      intro f2 s pos st h1 h2
      cases s with
      | nil => cases f2 <;> rfl
      | cons c cs =>
        cases f2 with
        | zero => simp at h2
        | succ f2b =>
          simp only [scanLoop]
          cases hm : pseudoMatch (c :: cs) with
          | none =>
            have hl1 : cs.length ≤ f := by simp at h1; omega
            have hl2 : cs.length ≤ f2b := by simp at h2; omega
            simp only []
            rw [ih f2b cs (pos + 1) st hl1 hl2]
          | some p =>
            obtain ⟨ws, tok, rest⟩ := p
            cases hp : processMatch ws tok rest pos st with
            | cont toks rest2 newPos st2 =>
              have hr1 : rest.length < (c :: cs).length := pseudoMatch_progress hm
              have hr2 : rest2.length ≤ rest.length := processMatch_cont_rest hp
              have hl1 : rest2.length ≤ f := by simp at h1 hr1; omega
              have hl2 : rest2.length ≤ f2b := by simp at h2 hr1; omega
              simp only [hp]
              rw [ih f2b rest2 newPos st2 hl1 hl2]
            | stop toks st2 => simp only [hp]

/-- C9, witness: on the concrete line `x = 1` plus terminator, any fuel
from the line length up gives the same outcome, and the first
pseudo-match consumes a character. -/
theorem c9_witness :
    ((lc "x = 1\n").length ≤ 20 ∧ (lc "x = 1\n").length ≤ 6 ∧
      scanLoop 20 (lc "x = 1\n") 0 (initState 0) =
        scanLoop 6 (lc "x = 1\n") 0 (initState 0)) ∧
    (pseudoMatch (lc "x = 1\n") = some ([], ['x'], lc " = 1\n") ∧
      (lc " = 1\n").length < (lc "x = 1\n").length) :=
  ⟨⟨by decide, by decide,
    c9_progress_and_fuel_adequacy.2 20 6 (lc "x = 1\n") 0 (initState 0)
      (by decide) (by decide)⟩,
   by decide,
   c9_progress_and_fuel_adequacy.1 (lc "x = 1\n") [] ['x'] (lc " = 1\n") (by decide)⟩

/-! ### C7: over a full run, Indent and Dedent counts agree -/

theorem countType_append (ty : TokType) (a b : List Token) :
    countType ty (a ++ b) = countType ty a + countType ty b := by
  simp [countType, List.countP_append]

theorem prependToks_outToks (ts : List Token) (o : ScanOut) :
    (prependToks ts o).outToks = ts ++ o.outToks := by
  cases o <;> rfl

theorem prependToks_outSt (ts : List Token) (o : ScanOut) :
    (prependToks ts o).outSt = o.outSt := by
  cases o <;> rfl

theorem countType_single_ne (ty : TokType) (t : Token) (h : ¬ t.type = ty) :
    countType ty [t] = 0 := by
  simp [countType, h]

theorem dedentsBelow_balance (start : Nat) (spos : Nat × Nat) (is : List Nat) :
    countType .INDENT (dedentsBelow start spos is).1 = 0 ∧
    countType .DEDENT (dedentsBelow start spos is).1 + (dedentsBelow start spos is).2.length
      = is.length ∧
    (0 ∈ is → 0 ∈ (dedentsBelow start spos is).2) := by
  induction is with
  | nil => simp [dedentsBelow, countType]
  | cons i is ih =>
    by_cases h : start < i
    · simp only [dedentsBelow, if_pos h]
      obtain ⟨ih1, ih2, ih3⟩ := ih
      refine ⟨?_, ?_, ?_⟩
      · simpa [countType, List.countP_cons, mkTok] using ih1
      · simp only [countType, List.countP_cons, mkTok] at ih2 ⊢
        simp at ih2 ⊢
        omega
      · intro h0
        rcases List.mem_cons.mp h0 with h0 | h0
        · exfalso; omega
        · exact ih3 h0
    · simp [dedentsBelow, if_neg h, countType]

theorem breakDedents_balance (start lnum : Nat) (is : List Nat) :
    countType .INDENT (breakDedents start lnum is).1 = 0 ∧
    countType .DEDENT (breakDedents start lnum is).1 + (breakDedents start lnum is).2.length
      = is.length ∧
    (0 ∈ is → 0 ∈ (breakDedents start lnum is).2) := by
  induction is with
  | nil => simp [breakDedents, countType]
  | cons i is ih =>
    by_cases h : i > start
    · simp only [breakDedents, if_pos h]
      obtain ⟨ih1, ih2, ih3⟩ := ih
      refine ⟨?_, ?_, ?_⟩
      · simpa [countType, List.countP_cons, mkTok] using ih1
      · simp only [countType, List.countP_cons, mkTok] at ih2 ⊢
        simp at ih2 ⊢
        omega
      · intro h0
        rcases List.mem_cons.mp h0 with h0 | h0
        · exfalso; omega
        · exact ih3 h0
    · simp [breakDedents, if_neg h, countType]

theorem indentTokens_balance (start : Nat) (spos : Nat × Nat) (paren : Int) (is : List Nat) :
    countType .INDENT (indentTokens start spos paren is).1 + is.length
      = countType .DEDENT (indentTokens start spos paren is).1
        + (indentTokens start spos paren is).2.length ∧
    (0 ∈ is → 0 ∈ (indentTokens start spos paren is).2) := by
  unfold indentTokens
  split
  · split
    · constructor
      · simp [countType, List.countP_cons, mkTok]
        omega
      · intro h0; exact List.mem_cons_of_mem _ h0
    · obtain ⟨h1, h2, h3⟩ := dedentsBelow_balance start spos is
      exact ⟨by omega, h3⟩
  · simp [countType]

theorem freshLineBlock_balance (start : Nat) (spos : Nat × Nat) (initial : Char)
    (st : EngState) :
    countType .INDENT (freshLineBlock start spos initial st).1 + st.indents.length
      = countType .DEDENT (freshLineBlock start spos initial st).1
        + (freshLineBlock start spos initial st).2.indents.length ∧
    (0 ∈ st.indents → 0 ∈ (freshLineBlock start spos initial st).2.indents) := by
  unfold freshLineBlock
  split
  · obtain ⟨h1, h2⟩ := indentTokens_balance start spos st.parenLevel st.indents
    exact ⟨h1, h2⟩
  · simp [countType]

theorem classifyBranch_balance (tok rest : List Char) (start newPos lnum : Nat)
    (st : EngState) :
    countType .INDENT (classifyBranch tok rest start newPos lnum st).outToks
        + st.indents.length
      = countType .DEDENT (classifyBranch tok rest start newPos lnum st).outToks
        + (classifyBranch tok rest start newPos lnum st).outSt.indents.length ∧
    (0 ∈ st.indents →
      0 ∈ (classifyBranch tok rest start newPos lnum st).outSt.indents) := by
  simp only [classifyBranch]
  repeat' split
  all_goals
    first
    | (simp [ScanOut.outToks, ScanOut.outSt, countType, List.countP_cons, mkTok]
       done)
    | (obtain ⟨h1, h2, h3⟩ := breakDedents_balance start lnum st.indents
       constructor
       · simp only [ScanOut.outToks, ScanOut.outSt, countType_append]
         rw [countType_single_ne _ _ (by simp [mkTok]),
           countType_single_ne _ _ (by simp [mkTok])]
         omega
       · exact h3)

theorem processMatch_balance (ws tok rest : List Char) (pos : Nat) (st0 : EngState) :
    countType .INDENT (processMatch ws tok rest pos st0).outToks + st0.indents.length
      = countType .DEDENT (processMatch ws tok rest pos st0).outToks
        + (processMatch ws tok rest pos st0).outSt.indents.length ∧
    (0 ∈ st0.indents → 0 ∈ (processMatch ws tok rest pos st0).outSt.indents) := by
  unfold processMatch
  simp only [prependToks_outToks, prependToks_outSt, countType_append]
  obtain ⟨f1, f2⟩ := freshLineBlock_balance (pos + ws.length) (st0.lnum, pos + ws.length)
    (tok.headD ' ') { st0 with prefixVal := ws }
  obtain ⟨c1, c2⟩ := classifyBranch_balance tok rest (pos + ws.length)
    (pos + ws.length + tok.length) st0.lnum
    (freshLineBlock (pos + ws.length) (st0.lnum, pos + ws.length) (tok.headD ' ')
      { st0 with prefixVal := ws }).2
  constructor
  · simp only [EngState.mk.injEq] at f1 c1 ⊢
    omega
  · intro h0
    exact c2 (f2 h0)

theorem scanLoop_balance (fuel : Nat) : ∀ (s : List Char) (pos : Nat) (st : EngState),
    countType .INDENT (scanLoop fuel s pos st).1 + st.indents.length
      = countType .DEDENT (scanLoop fuel s pos st).1
        + (scanLoop fuel s pos st).2.indents.length ∧
    (0 ∈ st.indents → 0 ∈ (scanLoop fuel s pos st).2.indents) := by
  induction fuel with
  | zero => intro s pos st; simp [scanLoop, countType]
  | succ f ih =>
    intro s pos st
    cases s with
    | nil => simp [scanLoop, countType]
    | cons c cs =>
      simp only [scanLoop]
      cases hm : pseudoMatch (c :: cs) with
      | none =>
        obtain ⟨ih1, ih2⟩ := ih cs (pos + 1) st
        constructor
        · simpa [countType, List.countP_cons, mkTok] using ih1
        · exact ih2
      | some p =>
        obtain ⟨ws, tok, rest⟩ := p
        obtain ⟨p1, p2⟩ := processMatch_balance ws tok rest pos st
        cases hp : processMatch ws tok rest pos st with
        | cont toks rest2 newPos st2 =>
          rw [hp] at p1 p2
          simp only [ScanOut.outToks, ScanOut.outSt] at p1 p2
          simp only [hp]
          obtain ⟨ih1, ih2⟩ := ih rest2 newPos st2
          refine ⟨?_, fun h0 => ih2 (p2 h0)⟩
          simp only [countType_append]
          omega
        | stop toks st2 =>
          rw [hp] at p1 p2
          simp only [ScanOut.outToks, ScanOut.outSt] at p1 p2
          simp only [hp]
          exact ⟨p1, p2⟩

theorem tokLine_balance (st : EngState) (line : List Char) :
    countType .INDENT (tokLine st line).1 + st.indents.length
      = countType .DEDENT (tokLine st line).1 + (tokLine st line).2.indents.length ∧
    (0 ∈ st.indents → 0 ∈ (tokLine st line).2.indents) := by
  simp only [tokLine]
  split
  · exact scanLoop_balance line.length line 0 _
  · split
    · obtain ⟨h1, h2⟩ := scanLoop_balance line.length _ _
        { st with lnum := st.lnum + 1, contstr := [] }
      constructor
      · simpa [countType, List.countP_cons, mkTok] using h1
      · exact h2
    · simp [countType]

theorem tokLines_balance : ∀ (lines : List (List Char)) (st : EngState),
    countType .INDENT (tokLines st lines).1 + st.indents.length
      = countType .DEDENT (tokLines st lines).1 + (tokLines st lines).2.indents.length ∧
    (0 ∈ st.indents → 0 ∈ (tokLines st lines).2.indents) := by
  intro lines
  induction lines with
  | nil => intro st; simp [tokLines, countType]
  | cons l ls ih =>
    intro st
    by_cases h : l = []
    · simp [tokLines, h, countType]
    · simp only [tokLines, if_neg h]
      obtain ⟨h1, h2⟩ := tokLine_balance st l
      obtain ⟨i1, i2⟩ := ih (tokLine st l).2
      constructor
      · simp only [countType_append]
        omega
      · intro h0
        exact i2 (h2 h0)

theorem countP_replicate_dedent (n : Nat) (t : Token) (h : t.type = .DEDENT) :
    List.countP (fun x => decide (x.type = TokType.DEDENT)) (List.replicate n t) = n := by
  induction n with
  | zero => rfl
  | succ k ih => simp [List.replicate_succ, List.countP_cons, h, ih]

theorem finishTokens_counts (st : EngState) :
    countType .INDENT (finishTokens st) = 0 ∧
    countType .DEDENT (finishTokens st) = st.indents.length - 1 := by
  unfold finishTokens
  split <;>
    (simp [countType, List.countP_append, List.countP_cons, List.countP_map, mkTok,
       Function.comp_def]
     rw [countP_replicate_dedent _ _ rfl])

/-- C7: over a complete run on any input, the number of `Indent` tokens
equals the number of `Dedent` tokens (counting both the recovery
heuristic's dedents and the end-of-stream flush): the indentation stack
returns to the sentinel-only level by stream end. -/
theorem c7_indent_dedent_balance (off : Nat) (lines : List (List Char)) :
    countType .INDENT (generate_tokens off lines)
      = countType .DEDENT (generate_tokens off lines) := by
  simp only [generate_tokens, countType_append]
  obtain ⟨h1, h2⟩ := tokLines_balance lines (initState off)
  obtain ⟨f1, f2⟩ := finishTokens_counts (tokLines (initState off) lines).2
  have h0 : 0 ∈ (tokLines (initState off) lines).2.indents := h2 (by simp [initState])
  have hne : (tokLines (initState off) lines).2.indents ≠ [] :=
    List.ne_nil_of_mem h0
  have hlen : 1 ≤ (tokLines (initState off) lines).2.indents.length :=
    List.length_pos.mpr hne
  have hinit : (initState off).indents.length = 1 := rfl
  omega

/-! ### C5: the nesting counter is bounded below by the closing brackets -/

theorem closersIn_append (a b : List Char) :
    closersIn (a ++ b) = closersIn a + closersIn b := by
  simp [closersIn, List.countP_append]

theorem closersIn_cons_le (c : Char) (cs : List Char) :
    closersIn cs ≤ closersIn (c :: cs) := by
  have h : c :: cs = [c] ++ cs := rfl
  rw [h, closersIn_append]
  omega

theorem closersCount_cons (l : List Char) (ls : List (List Char)) :
    closersCount (l :: ls) = closersIn l + closersCount ls := by
  simp [closersCount]

theorem closersIn_closer {tok : List Char}
    (h : tok = [')'] ∨ tok = [']'] ∨ tok = ['\x7d']) : closersIn tok = 1 := by
  rcases h with h | h | h <;> subst h <;> decide

theorem classifyBranch_paren (tok rest : List Char) (start newPos lnum : Nat)
    (st : EngState) :
    (classifyBranch tok rest start newPos lnum st).outSt.parenLevel ≥
      min st.parenLevel 0 - (closersIn tok : Int) := by
  simp only [classifyBranch]
  repeat' split
  all_goals
    first
    | (simp only [ScanOut.outSt]
       omega)
    | (rename_i h
       simp only [Bool.or_eq_true, decide_eq_true_eq, or_assoc] at h
       have hc := closersIn_closer h
       simp only [ScanOut.outSt]
       omega)

theorem freshLineBlock_paren (start : Nat) (spos : Nat × Nat) (initial : Char)
    (st : EngState) :
    (freshLineBlock start spos initial st).2.parenLevel = st.parenLevel := by
  unfold freshLineBlock
  split <;> rfl

theorem processMatch_paren (ws tok rest : List Char) (pos : Nat) (st0 : EngState) :
    (processMatch ws tok rest pos st0).outSt.parenLevel ≥
      min st0.parenLevel 0 - (closersIn tok : Int) := by
  unfold processMatch
  simp only [prependToks_outSt]
  have hc := classifyBranch_paren tok rest (pos + ws.length)
    (pos + ws.length + tok.length) st0.lnum
    (freshLineBlock (pos + ws.length) (st0.lnum, pos + ws.length) (tok.headD ' ')
      { st0 with prefixVal := ws }).2
  have hf : (freshLineBlock (pos + ws.length) (st0.lnum, pos + ws.length) (tok.headD ' ')
      { st0 with prefixVal := ws }).2.parenLevel = st0.parenLevel :=
    freshLineBlock_paren _ _ _ _
  rw [hf] at hc
  exact hc

theorem classifyBranch_cont_closers {tok rest : List Char} {start newPos lnum : Nat}
    {st : EngState} {toks : List Token} {rest2 : List Char} {np2 : Nat} {st2 : EngState}
    (hp : classifyBranch tok rest start newPos lnum st = .cont toks rest2 np2 st2) :
    closersIn rest2 ≤ closersIn rest := by
  simp only [classifyBranch] at hp
  repeat' split at hp
  all_goals
    first
    | exact ScanOut.noConfusion hp
    | (simp only [ScanOut.cont.injEq] at hp
       obtain ⟨_, hr, _, _⟩ := hp
       subst hr
       exact le_refl _)
    | (simp only [ScanOut.cont.injEq] at hp
       obtain ⟨_, hr, _, _⟩ := hp
       subst hr
       have h3 : _ ++ _ = rest := (endProgMatch_sound (by assumption)).1
       have h4 := congrArg closersIn h3
       rw [closersIn_append] at h4
       omega)

theorem processMatch_cont_closers {ws tok rest : List Char} {pos : Nat} {st : EngState}
    {toks : List Token} {rest2 : List Char} {newPos : Nat} {st2 : EngState}
    (hp : processMatch ws tok rest pos st = .cont toks rest2 newPos st2) :
    closersIn rest2 ≤ closersIn rest := by
  unfold processMatch at hp
  simp only [] at hp
  obtain ⟨toks0, ho, -⟩ := prependToks_cont hp
  exact classifyBranch_cont_closers ho

theorem scanLoop_paren (fuel : Nat) : ∀ (s : List Char) (pos : Nat) (st : EngState),
    (scanLoop fuel s pos st).2.parenLevel ≥ min st.parenLevel 0 - (closersIn s : Int) := by
  induction fuel with
  | zero =>
    intro s pos st
    simp only [scanLoop]
    omega
  | succ f ih =>
    intro s pos st
    cases s with
    | nil =>
      simp only [scanLoop]
      omega
    | cons c cs =>
      simp only [scanLoop]
      cases hm : pseudoMatch (c :: cs) with
      | none =>
        have h1 := ih cs (pos + 1) st
        have h2 := closersIn_cons_le c cs
        simp only []
        omega
      | some p =>
        obtain ⟨ws, tok, rest⟩ := p
        obtain ⟨-, -, -, hall⟩ := pseudoMatch_sound hm
        have hcl : closersIn tok + closersIn rest ≤ closersIn (c :: cs) := by
          have h4 := congrArg closersIn hall
          rw [closersIn_append, closersIn_append] at h4
          omega
        have pmp := processMatch_paren ws tok rest pos st
        cases hp : processMatch ws tok rest pos st with
        | cont toks rest2 newPos st2 =>
          rw [hp] at pmp
          simp only [ScanOut.outSt] at pmp
          have hr2 : closersIn rest2 ≤ closersIn rest := processMatch_cont_closers hp
          have h1 := ih rest2 newPos st2
          simp only [hp]
          omega
        | stop toks st2 =>
          rw [hp] at pmp
          simp only [ScanOut.outSt] at pmp
          simp only [hp]
          omega

theorem tokLine_paren (st : EngState) (line : List Char) :
    (tokLine st line).2.parenLevel ≥ min st.parenLevel 0 - (closersIn line : Int) := by
  simp only [tokLine]
  split
  · exact scanLoop_paren line.length line 0 _
  · split
    · rename_i t r heq
      have h1 := scanLoop_paren line.length r t.length
        { st with lnum := st.lnum + 1, contstr := ([] : List Char) }
      have h3 := (endProgMatch_sound heq).1
      have h4 := congrArg closersIn h3
      rw [closersIn_append] at h4
      simp only [EngState.mk.injEq] at h1 ⊢
      omega
    · show (st.parenLevel : Int) ≥ min st.parenLevel 0 - (closersIn line : Int)
      omega

theorem tokLines_paren : ∀ (lines : List (List Char)) (st : EngState),
    (tokLines st lines).2.parenLevel ≥ min st.parenLevel 0 - (closersCount lines : Int) := by
  intro lines
  induction lines with
  | nil =>
    intro st
    simp only [tokLines]
    omega
  | cons l ls ih =>
    intro st
    by_cases h : l = []
    · simp only [tokLines, if_pos h]
      omega
    · simp only [tokLines, if_neg h]
      have h1 := tokLine_paren st l
      have h2 := ih (tokLine st l).2
      have h3 : closersCount (l :: ls) = closersIn l + closersCount ls :=
        closersCount_cons l ls
      omega

/-- C5: the nesting-depth counter is an integer that unmatched closing
brackets can drive below zero (see the counterexample), but it is bounded
below: continuing from any engine state, the counter after any list of
lines is at least the minimum of the starting counter and `0` minus the
number of closing-bracket characters in those lines; in particular, from
the initial state it never drops below the negated count of closing
brackets in the input. -/
theorem c5_amended_paren_lower_bound :
    (∀ (lines : List (List Char)) (st : EngState),
      (tokLines st lines).2.parenLevel ≥
        min st.parenLevel 0 - (closersCount lines : Int)) ∧
    (∀ (off : Nat) (lines : List (List Char)),
      (tokLines (initState off) lines).2.parenLevel ≥ -(closersCount lines : Int)) := by
  constructor
  · intro lines st
    exact tokLines_paren lines st
  · intro off lines
    have h := tokLines_paren lines (initState off)
    have h0 : (initState off).parenLevel = 0 := rfl
    omega

/-! ### C6: shapes of the structural and newline tokens

A token whose text starts with a line terminator can only come from the
`\r?\n` alternative of the `special` pattern: every other alternative of
group 2 rejects a leading `\r` or `\n`, so the matched text is exactly
the terminator. -/

theorem matchSpecial_cr {c : Char} (hc : ¬ c = '\n') (cs : List Char) :
    matchSpecial ('\r' :: c :: cs) = none := by
  rw [matchSpecial.eq_def]
  repeat' split
  all_goals
    first
    | (rename_i heq hpun
       injection heq with e1 e2
       rw [← e1] at hpun
       exact absurd hpun (by decide))
    | simp_all

theorem matchGroup2_lf (cs : List Char) : matchGroup2 ('\n' :: cs) = some (['\n'], cs) := by
  have h1 : matchBackslashNl ('\n' :: cs) = none := rfl
  have h2 : matchComment ('\n' :: cs) = none := rfl
  have h3 : matchTriple ('\n' :: cs) = none := by
    match cs with
    | [] => rfl
    | [a] => rfl
    | a :: b :: r => rfl
  have h4 : matchNumber ('\n' :: cs) = none := rfl
  have h5 : matchOperator ('\n' :: cs) = none := rfl
  have h6 : matchBracket ('\n' :: cs) = none := rfl
  have h7 : matchSpecial ('\n' :: cs) = some (['\n'], cs) := rfl
  simp [matchGroup2, matchFunny, altM, h1, h2, h3, h4, h5, h6, h7]

theorem matchGroup2_cr_lf (cs : List Char) :
    matchGroup2 ('\r' :: '\n' :: cs) = some (['\r', '\n'], cs) := by
  have h1 : matchBackslashNl ('\r' :: '\n' :: cs) = none := rfl
  have h2 : matchComment ('\r' :: '\n' :: cs) = none := rfl
  have h3 : matchTriple ('\r' :: '\n' :: cs) = none := by
    match cs with
    | [] => rfl
    | a :: r => rfl
  have h4 : matchNumber ('\r' :: '\n' :: cs) = none := rfl
  have h5 : matchOperator ('\r' :: '\n' :: cs) = none := rfl
  have h6 : matchBracket ('\r' :: '\n' :: cs) = none := rfl
  have h7 : matchSpecial ('\r' :: '\n' :: cs) = some (['\r', '\n'], cs) := rfl
  simp [matchGroup2, matchFunny, altM, h1, h2, h3, h4, h5, h6, h7]

theorem matchGroup2_cr_one : matchGroup2 ['\r'] = none := rfl

theorem matchGroup2_cr_none {c : Char} (hc : ¬ c = '\n') (cs : List Char) :
    matchGroup2 ('\r' :: c :: cs) = none := by
  have h1 : matchBackslashNl ('\r' :: c :: cs) = none := rfl
  have h2 : matchComment ('\r' :: c :: cs) = none := rfl
  have h3 : matchTriple ('\r' :: c :: cs) = none := by
    match cs with
    | [] => rfl
    | a :: r => rfl
  have h4 : matchNumber ('\r' :: c :: cs) = none := rfl
  have h5 : matchOperator ('\r' :: c :: cs) = none := rfl
  have h6 : matchBracket ('\r' :: c :: cs) = none := rfl
  have h7 : matchSpecial ('\r' :: c :: cs) = none := matchSpecial_cr hc cs
  have h8 : matchContStr ('\r' :: c :: cs) = none := rfl
  have h9 : matchName ('\r' :: c :: cs) = none := rfl
  simp [matchGroup2, matchFunny, altM, h1, h2, h3, h4, h5, h6, h7, h8, h9]

theorem pseudoMatch_nl_tok {s ws tok rest : List Char}
    (h : pseudoMatch s = some (ws, tok, rest))
    (hh : tok.headD ' ' = '\r' ∨ tok.headD ' ' = '\n') :
    tok = ['\r', '\n'] ∨ tok = ['\n'] := by
  obtain ⟨-, hsplit, htne, -⟩ := pseudoMatch_sound h
  unfold pseudoMatch at h
  simp only [] at h
  rw [Option.map_eq_some'] at h
  obtain ⟨⟨t2, r2⟩, hg, he⟩ := h
  simp only [Prod.mk.injEq] at he
  obtain ⟨-, ht2, hr2⟩ := he
  subst ht2
  subst hr2
  rw [← hsplit] at hg
  cases t2 with
  | nil => exact absurd rfl htne
  | cons th tt =>
    simp only [List.headD_cons] at hh
    rcases hh with hh | hh
    · subst hh
      cases htr : tt ++ r2 with
      | nil =>
        rw [List.cons_append, htr, matchGroup2_cr_one] at hg
        exact Option.noConfusion hg
      | cons c2 r3 =>
        by_cases hc2 : c2 = '\n'
        · subst hc2
          rw [List.cons_append, htr, matchGroup2_cr_lf] at hg
          simp only [Option.some.injEq, Prod.mk.injEq] at hg
          left
          rw [← hg.1]
        · rw [List.cons_append, htr, matchGroup2_cr_none hc2] at hg
          exact Option.noConfusion hg
    · subst hh
      rw [List.cons_append, matchGroup2_lf] at hg
      simp only [Option.some.injEq, Prod.mk.injEq] at hg
      right
      rw [← hg.1]

theorem shapeOk_nonstruct (ty : TokType) (v : List Char) (pos : Nat × Nat)
    (pre : List Char) (h1 : ¬ ty = TokType.INDENT) (h2 : ¬ ty = TokType.DEDENT)
    (h3 : ¬ ty = TokType.ENDMARKER) (h4 : ¬ ty = TokType.NEWLINE) :
    shapeOk (mkTok ty v pos pre) := by
  simp [shapeOk, mkTok, h1, h2, h3, h4]

theorem dedentsBelow_shape (start : Nat) (spos : Nat × Nat) (is : List Nat) :
    ∀ t ∈ (dedentsBelow start spos is).1, shapeOk t := by
  induction is with
  | nil => simp [dedentsBelow]
  | cons i is ih =>
    by_cases h : start < i
    · simp only [dedentsBelow, if_pos h]
      intro t htm
      rcases List.mem_cons.mp htm with htm | htm
      · subst htm
        simp [shapeOk, mkTok]
      · exact ih t htm
    · simp [dedentsBelow, if_neg h]

theorem breakDedents_shape (start lnum : Nat) (is : List Nat) :
    ∀ t ∈ (breakDedents start lnum is).1, shapeOk t := by
  induction is with
  | nil => simp [breakDedents]
  | cons i is ih =>
    by_cases h : i > start
    · simp only [breakDedents, if_pos h]
      intro t htm
      rcases List.mem_cons.mp htm with htm | htm
      · subst htm
        simp [shapeOk, mkTok]
      · exact ih t htm
    · simp [breakDedents, if_neg h]

theorem indentTokens_shape (start : Nat) (spos : Nat × Nat) (paren : Int)
    (is : List Nat) : ∀ t ∈ (indentTokens start spos paren is).1, shapeOk t := by
  unfold indentTokens
  split
  · split
    · intro t htm
      rcases List.mem_singleton.mp htm with htm
      subst htm
      simp [shapeOk, mkTok]
    · exact dedentsBelow_shape start spos is
  · simp

theorem freshLineBlock_shape (start : Nat) (spos : Nat × Nat) (initial : Char)
    (st : EngState) : ∀ t ∈ (freshLineBlock start spos initial st).1, shapeOk t := by
  unfold freshLineBlock
  split
  · exact indentTokens_shape start spos st.parenLevel st.indents
  · simp

theorem classifyBranch_shape (tok rest : List Char) (start newPos lnum : Nat)
    (st : EngState)
    (htok : tok.headD ' ' = '\r' ∨ tok.headD ' ' = '\n' → tok = ['\r', '\n'] ∨ tok = ['\n']) :
    ∀ t ∈ (classifyBranch tok rest start newPos lnum st).outToks, shapeOk t := by
  simp only [classifyBranch]
  repeat' split
  all_goals
    first
    | (simp [ScanOut.outToks, shapeOk, mkTok]
       done)
    | (rename_i hN h
       simp only [Bool.or_eq_true, decide_eq_true_eq] at hN
       rcases htok hN with h2 | h2 <;>
         (simp [ScanOut.outToks, shapeOk, mkTok, h2]
          done))
    | (intro t htm
       simp only [ScanOut.outToks, List.mem_append] at htm
       rcases htm with htm | htm
       · exact breakDedents_shape start lnum st.indents t htm
       · rcases List.mem_singleton.mp htm with htm
         subst htm
         simp [shapeOk, mkTok])

theorem processMatch_shape (ws tok rest : List Char) (pos : Nat) (st0 : EngState)
    (htok : tok.headD ' ' = '\r' ∨ tok.headD ' ' = '\n' → tok = ['\r', '\n'] ∨ tok = ['\n']) :
    ∀ t ∈ (processMatch ws tok rest pos st0).outToks, shapeOk t := by
  unfold processMatch
  simp only [prependToks_outToks]
  intro t htm
  rw [List.mem_append] at htm
  rcases htm with htm | htm
  · exact freshLineBlock_shape _ _ _ _ t htm
  · exact classifyBranch_shape _ _ _ _ _ _ htok t htm

theorem scanLoop_shape (fuel : Nat) : ∀ (s : List Char) (pos : Nat) (st : EngState),
    ∀ t ∈ (scanLoop fuel s pos st).1, shapeOk t := by
  induction fuel with
  | zero => intro s pos st; simp [scanLoop]
  | succ f ih =>
    intro s pos st
    cases s with
    | nil => simp [scanLoop]
    | cons c cs =>
      simp only [scanLoop]
      cases hm : pseudoMatch (c :: cs) with
      | none =>
        intro t htm
        rcases List.mem_cons.mp htm with htm | htm
        · subst htm
          simp [shapeOk, mkTok]
        · exact ih cs (pos + 1) st t htm
      | some p =>
        obtain ⟨ws, tok, rest⟩ := p
        have htok : tok.headD ' ' = '\r' ∨ tok.headD ' ' = '\n' →
            tok = ['\r', '\n'] ∨ tok = ['\n'] := fun hh => pseudoMatch_nl_tok hm hh
        have hps := processMatch_shape ws tok rest pos st htok
        cases hp : processMatch ws tok rest pos st with
        | cont toks rest2 newPos st2 =>
          rw [hp] at hps
          simp only [ScanOut.outToks] at hps
          simp only [hp]
          intro t htm
          rw [List.mem_append] at htm
          rcases htm with htm | htm
          · exact hps t htm
          · exact ih rest2 newPos st2 t htm
        | stop toks st2 =>
          rw [hp] at hps
          simp only [ScanOut.outToks] at hps
          simp only [hp]
          exact hps

theorem tokLine_shape (st : EngState) (line : List Char) :
    ∀ t ∈ (tokLine st line).1, shapeOk t := by
  simp only [tokLine]
  split
  · exact scanLoop_shape line.length line 0 _
  · split
    · intro t htm
      rcases List.mem_cons.mp htm with htm | htm
      · subst htm
        simp [shapeOk, mkTok]
      · exact scanLoop_shape line.length _ _ _ t htm
    · simp

theorem tokLines_shape : ∀ (lines : List (List Char)) (st : EngState),
    ∀ t ∈ (tokLines st lines).1, shapeOk t := by
  intro lines
  induction lines with
  | nil => intro st; simp [tokLines]
  | cons l ls ih =>
    intro st
    by_cases h : l = []
    · simp [tokLines, h]
    · simp only [tokLines, if_neg h]
      intro t htm
      rw [List.mem_append] at htm
      rcases htm with htm | htm
      · exact tokLine_shape st l t htm
      · exact ih (tokLine st l).2 t htm

theorem finishTokens_shape (st : EngState) : ∀ t ∈ finishTokens st, shapeOk t := by
  unfold finishTokens
  intro t htm
  rw [List.append_assoc, List.mem_append, List.mem_append] at htm
  rcases htm with htm | htm | htm
  · split at htm
    · simp at htm
    · rcases List.mem_singleton.mp htm with htm
      subst htm
      simp [shapeOk, mkTok]
  · rw [List.mem_map] at htm
    obtain ⟨i, -, hi⟩ := htm
    subst hi
    simp [shapeOk, mkTok]
  · rcases List.mem_singleton.mp htm with htm
    subst htm
    simp [shapeOk, mkTok]

/-- C6: for every input, every `Indent` and `Dedent` token has empty
value and empty prefix and every `EndMarker` has an empty value, but the
`EndMarker` prefix is the engine's current (possibly stale, nonempty)
prefix — see the counterexample; every `NewLine` token's value is a
literal line terminator (a line feed or a carriage return plus line
feed). -/
theorem c6_amended_token_shapes (off : Nat) (lines : List (List Char)) (t : Token)
    (ht : t ∈ generate_tokens off lines) : shapeOk t := by
  unfold generate_tokens at ht
  simp only [] at ht
  rw [List.mem_append] at ht
  rcases ht with ht | ht
  · exact tokLines_shape lines (initState off) t ht
  · exact finishTokens_shape _ t ht

/-- C6, witness: on the source line `x` plus terminator, the `NewLine`
token is emitted at `(1, 1)`, and the claim theorem applies to it. -/
theorem c6_amended_witness :
    mkTok .NEWLINE ['\n'] (1, 1) [] ∈ generate_tokens 0 [lc "x\n"] ∧
      shapeOk (mkTok .NEWLINE ['\n'] (1, 1) []) :=
  ⟨by decide, c6_amended_token_shapes 0 [lc "x\n"] _ (by decide)⟩

/-! ### C8: the end-of-stream flush of a pending continued string

The loop body never emits an `EndMarker`; the single `EndMarker` comes
from the flush, after the pending-string `ErrorToken` and the dedents. -/

theorem dedentsBelow_noEnd (start : Nat) (spos : Nat × Nat) (is : List Nat) :
    ∀ t ∈ (dedentsBelow start spos is).1, t.type ≠ TokType.ENDMARKER := by
  induction is with
  | nil => simp [dedentsBelow]
  | cons i is ih =>
    by_cases h : start < i
    · simp only [dedentsBelow, if_pos h]
      intro t htm
      rcases List.mem_cons.mp htm with htm | htm
      · subst htm
        simp [mkTok]
      · exact ih t htm
    · simp [dedentsBelow, if_neg h]

theorem breakDedents_noEnd (start lnum : Nat) (is : List Nat) :
    ∀ t ∈ (breakDedents start lnum is).1, t.type ≠ TokType.ENDMARKER := by
  induction is with
  | nil => simp [breakDedents]
  | cons i is ih =>
    by_cases h : i > start
    · simp only [breakDedents, if_pos h]
      intro t htm
      rcases List.mem_cons.mp htm with htm | htm
      · subst htm
        simp [mkTok]
      · exact ih t htm
    · simp [breakDedents, if_neg h]

theorem indentTokens_noEnd (start : Nat) (spos : Nat × Nat) (paren : Int)
    (is : List Nat) : ∀ t ∈ (indentTokens start spos paren is).1, t.type ≠ TokType.ENDMARKER := by
  unfold indentTokens
  split
  · split
    · intro t htm
      rcases List.mem_singleton.mp htm with htm
      subst htm
      simp [mkTok]
    · exact dedentsBelow_noEnd start spos is
  · simp

theorem freshLineBlock_noEnd (start : Nat) (spos : Nat × Nat) (initial : Char)
    (st : EngState) : ∀ t ∈ (freshLineBlock start spos initial st).1, t.type ≠ TokType.ENDMARKER := by
  unfold freshLineBlock
  split
  · exact indentTokens_noEnd start spos st.parenLevel st.indents
  · simp

theorem classifyBranch_noEnd (tok rest : List Char) (start newPos lnum : Nat)
    (st : EngState) :
    ∀ t ∈ (classifyBranch tok rest start newPos lnum st).outToks, t.type ≠ TokType.ENDMARKER := by
  simp only [classifyBranch]
  repeat' split
  all_goals
    first
    | (simp [ScanOut.outToks, mkTok]
       done)
    | (intro t htm
       simp only [ScanOut.outToks, List.mem_append] at htm
       rcases htm with htm | htm
       · exact breakDedents_noEnd start lnum st.indents t htm
       · rcases List.mem_singleton.mp htm with htm
         subst htm
         simp [mkTok])

theorem processMatch_noEnd (ws tok rest : List Char) (pos : Nat) (st0 : EngState) :
    ∀ t ∈ (processMatch ws tok rest pos st0).outToks, t.type ≠ TokType.ENDMARKER := by
  unfold processMatch
  simp only [prependToks_outToks]
  intro t htm
  rw [List.mem_append] at htm
  rcases htm with htm | htm
  · exact freshLineBlock_noEnd _ _ _ _ t htm
  · exact classifyBranch_noEnd _ _ _ _ _ _ t htm

theorem scanLoop_noEnd (fuel : Nat) : ∀ (s : List Char) (pos : Nat) (st : EngState),
    ∀ t ∈ (scanLoop fuel s pos st).1, t.type ≠ TokType.ENDMARKER := by
  induction fuel with
  | zero => intro s pos st; simp [scanLoop]
  | succ f ih =>
    intro s pos st
    cases s with
    | nil => simp [scanLoop]
    | cons c cs =>
      simp only [scanLoop]
      cases hm : pseudoMatch (c :: cs) with
      | none =>
        intro t htm
        rcases List.mem_cons.mp htm with htm | htm
        · subst htm
          simp [mkTok]
        · exact ih cs (pos + 1) st t htm
      | some p =>
        obtain ⟨ws, tok, rest⟩ := p
        have hps := processMatch_noEnd ws tok rest pos st
        cases hp : processMatch ws tok rest pos st with
        | cont toks rest2 newPos st2 =>
          rw [hp] at hps
          simp only [ScanOut.outToks] at hps
          simp only [hp]
          intro t htm
          rw [List.mem_append] at htm
          rcases htm with htm | htm
          · exact hps t htm
          · exact ih rest2 newPos st2 t htm
        | stop toks st2 =>
          rw [hp] at hps
          simp only [ScanOut.outToks] at hps
          simp only [hp]
          exact hps

theorem tokLine_noEnd (st : EngState) (line : List Char) :
    ∀ t ∈ (tokLine st line).1, t.type ≠ TokType.ENDMARKER := by
  simp only [tokLine]
  split
  · exact scanLoop_noEnd line.length line 0 _
  · split
    · intro t htm
      rcases List.mem_cons.mp htm with htm | htm
      · subst htm
        simp [mkTok]
      · exact scanLoop_noEnd line.length _ _ _ t htm
    · simp

theorem tokLines_noEnd : ∀ (lines : List (List Char)) (st : EngState),
    ∀ t ∈ (tokLines st lines).1, t.type ≠ TokType.ENDMARKER := by
  intro lines
  induction lines with
  | nil => intro st; simp [tokLines]
  | cons l ls ih =>
    intro st
    by_cases h : l = []
    · simp [tokLines, h]
    · simp only [tokLines, if_neg h]
      intro t htm
      rw [List.mem_append] at htm
      rcases htm with htm | htm
      · exact tokLine_noEnd st l t htm
      · exact ih (tokLine st l).2 t htm

theorem map_const_replicate {α β : Type} (l : List α) (b : β) :
    l.map (fun _ => b) = List.replicate l.length b := by
  induction l with
  | nil => rfl
  | cons a l ih => simp [List.replicate_succ, ih]

theorem finishTokens_end_count (st : EngState) :
    countType .ENDMARKER (finishTokens st) = 1 := by
  unfold finishTokens
  split <;>
    simp [countType, List.countP_append, List.countP_cons, List.countP_map, mkTok,
      Function.comp_def]

/-- C8: when a continued string is still pending after the last line, the
stream is the loop-body tokens, then exactly one `ErrorToken` carrying
the whole accumulated unconsumed text from the opener, then one `Dedent`
per indentation level above the sentinel, then the single `EndMarker`;
on every input the stream holds exactly one `EndMarker` (the engine is a
total function and always completes), and the loop body itself never
emits one. -/
theorem c8_unterminated_flush (off : Nat) (lines : List (List Char)) :
    ((tokLines (initState off) lines).2.contstr ≠ [] →
      generate_tokens off lines =
        (tokLines (initState off) lines).1
          ++ mkTok .ERRORTOKEN (tokLines (initState off) lines).2.contstr
              (tokLines (initState off) lines).2.contstrStart
              (tokLines (initState off) lines).2.prefixVal
            :: (List.replicate ((tokLines (initState off) lines).2.indents.length - 1)
                  (mkTok .DEDENT [] ((tokLines (initState off) lines).2.lnum, 0) [])
                ++ [mkTok .ENDMARKER [] ((tokLines (initState off) lines).2.lnum, 0)
                      (tokLines (initState off) lines).2.prefixVal])) ∧
    countType .ENDMARKER (generate_tokens off lines) = 1 ∧
    (∀ t ∈ (tokLines (initState off) lines).1, t.type ≠ TokType.ENDMARKER) := by
  refine ⟨?_, ?_, ?_⟩
  · intro h
    simp only [generate_tokens]
    have hf : finishTokens (tokLines (initState off) lines).2 =
        mkTok .ERRORTOKEN (tokLines (initState off) lines).2.contstr
            (tokLines (initState off) lines).2.contstrStart
            (tokLines (initState off) lines).2.prefixVal
          :: (List.replicate ((tokLines (initState off) lines).2.indents.length - 1)
                (mkTok .DEDENT [] ((tokLines (initState off) lines).2.lnum, 0) [])
              ++ [mkTok .ENDMARKER [] ((tokLines (initState off) lines).2.lnum, 0)
                    (tokLines (initState off) lines).2.prefixVal]) := by
      unfold finishTokens
      rw [if_neg h, map_const_replicate, List.length_dropLast]
      simp
    rw [hf]
  · simp only [generate_tokens, countType_append]
    have h0 : countType .ENDMARKER (tokLines (initState off) lines).1 = 0 := by
      simp only [countType]
      rw [List.countP_eq_zero]
      intro t htm
      simpa using tokLines_noEnd lines (initState off) t htm
    rw [h0, finishTokens_end_count]
  · exact tokLines_noEnd lines (initState off)

/-- C8, witness: the single line opening a triple-quoted string that
never closes.  The pending text is the whole line from the opener, and
the flush shape holds with no dedents. -/
theorem c8_witness :
    (tokLines (initState 0) [[q1, q1, q1, 'a', '\n']]).2.contstr ≠ [] ∧
      generate_tokens 0 [[q1, q1, q1, 'a', '\n']] =
        (tokLines (initState 0) [[q1, q1, q1, 'a', '\n']]).1
          ++ mkTok .ERRORTOKEN
              (tokLines (initState 0) [[q1, q1, q1, 'a', '\n']]).2.contstr
              (tokLines (initState 0) [[q1, q1, q1, 'a', '\n']]).2.contstrStart
              (tokLines (initState 0) [[q1, q1, q1, 'a', '\n']]).2.prefixVal
            :: (List.replicate
                  ((tokLines (initState 0) [[q1, q1, q1, 'a', '\n']]).2.indents.length - 1)
                  (mkTok .DEDENT []
                    ((tokLines (initState 0) [[q1, q1, q1, 'a', '\n']]).2.lnum, 0) [])
                ++ [mkTok .ENDMARKER []
                      ((tokLines (initState 0) [[q1, q1, q1, 'a', '\n']]).2.lnum, 0)
                      (tokLines (initState 0) [[q1, q1, q1, 'a', '\n']]).2.prefixVal]) :=
  ⟨by decide, (c8_unterminated_flush 0 [[q1, q1, q1, 'a', '\n']]).1 (by decide)⟩

/-! ### C10: indentation is never evaluated on the first physical line

`new_line` starts `False` and flips only after a line terminator; on a
line in which the line feed can only be the last character (as `readline`
produces), the flip ends the line, so the indent/dedent block can first
run on the second physical line. -/

theorem mem_dropLast_append {α : Type} (a : List α) {b s : List α} (h : a ++ b = s)
    {x : α} (hx : x ∈ b.dropLast) : x ∈ s.dropLast := by
  subst h
  cases b with
  | nil => simp at hx
  | cons c cs =>
    rw [List.dropLast_append_cons]
    exact List.mem_append_right a hx

theorem nl_rest_nil {ws tok rest s : List Char} (h : ws ++ (tok ++ rest) = s)
    (hnl : '\n' ∈ tok) (hs : '\n' ∉ s.dropLast) : rest = [] := by
  cases rest with
  | nil => rfl
  | cons c cs =>
    exfalso
    apply hs
    rw [← h, ← List.append_assoc, List.dropLast_append_cons]
    exact List.mem_append_left _ (List.mem_append_right ws hnl)

theorem validLine_no_nl {l : List Char} (h : validLine l = true) : '\n' ∉ l.dropLast := by
  simp only [validLine, List.all_eq_true] at h
  intro hm
  have h2 := h '\n' hm
  simp at h2

theorem scanLoop_nil_eq (fuel : Nat) (pos : Nat) (st : EngState) :
    scanLoop fuel [] pos st = ([], st) := by
  cases fuel <;> rfl

theorem dedentsBelow_startLine (start L x : Nat) (is : List Nat) :
    ∀ t ∈ (dedentsBelow start (L, x) is).1, t.startLine = L := by
  induction is with
  | nil => simp [dedentsBelow]
  | cons i is ih =>
    by_cases h : start < i
    · simp only [dedentsBelow, if_pos h]
      intro t htm
      rcases List.mem_cons.mp htm with htm | htm
      · subst htm; rfl
      · exact ih t htm
    · simp [dedentsBelow, if_neg h]

theorem breakDedents_startLine (start lnum : Nat) (is : List Nat) :
    ∀ t ∈ (breakDedents start lnum is).1, t.startLine = lnum := by
  induction is with
  | nil => simp [breakDedents]
  | cons i is ih =>
    by_cases h : i > start
    · simp only [breakDedents, if_pos h]
      intro t htm
      rcases List.mem_cons.mp htm with htm | htm
      · subst htm; rfl
      · exact ih t htm
    · simp [breakDedents, if_neg h]

theorem indentTokens_startLine (start L x : Nat) (paren : Int) (is : List Nat) :
    ∀ t ∈ (indentTokens start (L, x) paren is).1, t.startLine = L := by
  unfold indentTokens
  split
  · split
    · intro t htm
      rcases List.mem_singleton.mp htm with htm
      subst htm; rfl
    · exact dedentsBelow_startLine start L x is
  · simp

theorem freshLineBlock_startLine (start L x : Nat) (initial : Char) (st : EngState) :
    ∀ t ∈ (freshLineBlock start (L, x) initial st).1, t.startLine = L := by
  unfold freshLineBlock
  split
  · exact indentTokens_startLine start L x st.parenLevel st.indents
  · simp

theorem freshLineBlock_lnum (start : Nat) (spos : Nat × Nat) (initial : Char)
    (st : EngState) : (freshLineBlock start spos initial st).2.lnum = st.lnum := by
  unfold freshLineBlock
  split <;> rfl

theorem classifyBranch_startLine (tok rest : List Char) (start newPos lnum : Nat)
    (st : EngState) :
    ∀ t ∈ (classifyBranch tok rest start newPos lnum st).outToks, t.startLine = lnum := by
  simp only [classifyBranch]
  repeat' split
  all_goals
    first
    | (simp [ScanOut.outToks, mkTok]
       done)
    | (intro t htm
       simp only [ScanOut.outToks, List.mem_append] at htm
       rcases htm with htm | htm
       · exact breakDedents_startLine start lnum st.indents t htm
       · rcases List.mem_singleton.mp htm with htm
         subst htm
         rfl)

theorem classifyBranch_lnum (tok rest : List Char) (start newPos lnum : Nat)
    (st : EngState) :
    (classifyBranch tok rest start newPos lnum st).outSt.lnum = st.lnum := by
  simp only [classifyBranch]
  repeat' split
  all_goals simp [ScanOut.outSt]

theorem processMatch_startLine (ws tok rest : List Char) (pos : Nat) (st0 : EngState) :
    (∀ t ∈ (processMatch ws tok rest pos st0).outToks, t.startLine = st0.lnum) ∧
    (processMatch ws tok rest pos st0).outSt.lnum = st0.lnum := by
  unfold processMatch
  simp only [prependToks_outToks, prependToks_outSt]
  constructor
  · intro t htm
    rw [List.mem_append] at htm
    rcases htm with htm | htm
    · exact freshLineBlock_startLine _ _ _ _ _ t htm
    · exact classifyBranch_startLine _ _ _ _ _ _ t htm
  · have h1 := classifyBranch_lnum tok rest (pos + ws.length)
      (pos + ws.length + tok.length) st0.lnum
      (freshLineBlock (pos + ws.length) (st0.lnum, pos + ws.length) (tok.headD ' ')
        { st0 with prefixVal := ws }).2
    have h2 : (freshLineBlock (pos + ws.length) (st0.lnum, pos + ws.length) (tok.headD ' ')
        { st0 with prefixVal := ws }).2.lnum = st0.lnum :=
      freshLineBlock_lnum _ _ _ _
    rw [h2] at h1
    exact h1

theorem scanLoop_startLine (fuel : Nat) : ∀ (s : List Char) (pos : Nat) (st : EngState),
    (∀ t ∈ (scanLoop fuel s pos st).1, t.startLine = st.lnum) ∧
    (scanLoop fuel s pos st).2.lnum = st.lnum := by
  induction fuel with
  | zero => intro s pos st; simp [scanLoop]
  | succ f ih =>
    intro s pos st
    cases s with
    | nil => simp [scanLoop]
    | cons c cs =>
      simp only [scanLoop]
      cases hm : pseudoMatch (c :: cs) with
      | none =>
        obtain ⟨ih1, ih2⟩ := ih cs (pos + 1) st
        refine ⟨?_, ih2⟩
        intro t htm
        rcases List.mem_cons.mp htm with htm | htm
        · subst htm; rfl
        · exact ih1 t htm
      | some p =>
        obtain ⟨ws, tok, rest⟩ := p
        obtain ⟨hps, hpl⟩ := processMatch_startLine ws tok rest pos st
        cases hp : processMatch ws tok rest pos st with
        | cont toks rest2 newPos st2 =>
          rw [hp] at hps hpl
          simp only [ScanOut.outToks, ScanOut.outSt] at hps hpl
          simp only [hp]
          obtain ⟨ih1, ih2⟩ := ih rest2 newPos st2
          constructor
          · intro t htm
            rw [List.mem_append] at htm
            rcases htm with htm | htm
            · exact hps t htm
            · rw [ih1 t htm, hpl]
          · rw [ih2, hpl]
        | stop toks st2 =>
          rw [hp] at hps hpl
          simp only [ScanOut.outToks, ScanOut.outSt] at hps hpl
          simp only [hp]
          exact ⟨hps, hpl⟩

theorem breakDedents_noIndent (start lnum : Nat) (is : List Nat) :
    ∀ t ∈ (breakDedents start lnum is).1, t.type ≠ TokType.INDENT := by
  induction is with
  | nil => simp [breakDedents]
  | cons i is ih =>
    by_cases h : i > start
    · simp only [breakDedents, if_pos h]
      intro t htm
      rcases List.mem_cons.mp htm with htm | htm
      · subst htm; simp [mkTok]
      · exact ih t htm
    · simp [breakDedents, if_neg h]

theorem classifyBranch_noIndent (tok rest : List Char) (start newPos lnum : Nat)
    (st : EngState) :
    ∀ t ∈ (classifyBranch tok rest start newPos lnum st).outToks, t.type ≠ TokType.INDENT := by
  simp only [classifyBranch]
  repeat' split
  all_goals
    first
    | (simp [ScanOut.outToks, mkTok]
       done)
    | (intro t htm
       simp only [ScanOut.outToks, List.mem_append] at htm
       rcases htm with htm | htm
       · exact breakDedents_noIndent start lnum st.indents t htm
       · rcases List.mem_singleton.mp htm with htm
         subst htm
         simp [mkTok])

theorem freshLineBlock_off (start : Nat) (spos : Nat × Nat) (initial : Char)
    {st : EngState} (hnl : st.newLine = false) :
    freshLineBlock start spos initial st = ([], st) := by
  unfold freshLineBlock
  rw [hnl]
  simp

theorem processMatch_noIndent (ws tok rest : List Char) (pos : Nat) {st0 : EngState}
    (hnl : st0.newLine = false) :
    ∀ t ∈ (processMatch ws tok rest pos st0).outToks, t.type ≠ TokType.INDENT := by
  unfold processMatch
  simp only [prependToks_outToks]
  have hf : freshLineBlock (pos + ws.length) (st0.lnum, pos + ws.length) (tok.headD ' ')
      { st0 with prefixVal := ws } = ([], { st0 with prefixVal := ws }) :=
    freshLineBlock_off _ _ _ hnl
  rw [hf]
  simp only [List.nil_append]
  exact fun t htm => classifyBranch_noIndent _ _ _ _ _ _ t htm

theorem freshLineBlock_newLine (start : Nat) (spos : Nat × Nat) (initial : Char)
    (st : EngState) :
    (freshLineBlock start spos initial st).2.newLine = true → st.newLine = true := by
  unfold freshLineBlock
  split
  · intro h
    simp at h
  · exact id

theorem classifyBranch_newLine (tok rest : List Char) (start newPos lnum : Nat)
    (st : EngState) :
    (classifyBranch tok rest start newPos lnum st).outSt.newLine = true →
      st.newLine = true ∨ (tok.headD ' ' = '\r' ∨ tok.headD ' ' = '\n') := by
  simp only [classifyBranch]
  repeat' split
  all_goals
    first
    | (intro h
       simp only [ScanOut.outSt] at h
       exact Or.inl h)
    | (intro h
       rename_i hN h2
       simp only [Bool.or_eq_true, decide_eq_true_eq] at hN
       exact Or.inr hN)

theorem processMatch_newLine (ws tok rest : List Char) (pos : Nat) (st0 : EngState) :
    (processMatch ws tok rest pos st0).outSt.newLine = true →
      st0.newLine = true ∨ (tok.headD ' ' = '\r' ∨ tok.headD ' ' = '\n') := by
  unfold processMatch
  simp only [prependToks_outSt]
  intro h
  rcases classifyBranch_newLine tok rest (pos + ws.length)
      (pos + ws.length + tok.length) st0.lnum _ h with h2 | h2
  · have h3 := freshLineBlock_newLine (pos + ws.length) (st0.lnum, pos + ws.length)
      (tok.headD ' ') { st0 with prefixVal := ws } h2
    exact Or.inl h3
  · exact Or.inr h2

theorem classifyBranch_cont_suffix {tok rest : List Char} {start newPos lnum : Nat}
    {st : EngState} {toks : List Token} {rest2 : List Char} {np2 : Nat} {st2 : EngState}
    (hp : classifyBranch tok rest start newPos lnum st = .cont toks rest2 np2 st2) :
    ∃ a, a ++ rest2 = rest := by
  simp only [classifyBranch] at hp
  repeat' split at hp
  all_goals
    first
    | exact ScanOut.noConfusion hp
    | (simp only [ScanOut.cont.injEq] at hp
       obtain ⟨_, hr, _, _⟩ := hp
       subst hr
       exact ⟨[], rfl⟩)
    | (simp only [ScanOut.cont.injEq] at hp
       obtain ⟨_, hr, _, _⟩ := hp
       subst hr
       have h3 : _ ++ _ = rest := (endProgMatch_sound (by assumption)).1
       exact ⟨_, h3⟩)

theorem processMatch_cont_suffix {ws tok rest : List Char} {pos : Nat} {st : EngState}
    {toks : List Token} {rest2 : List Char} {newPos : Nat} {st2 : EngState}
    (hp : processMatch ws tok rest pos st = .cont toks rest2 newPos st2) :
    ∃ a, a ++ rest2 = rest := by
  unfold processMatch at hp
  simp only [] at hp
  obtain ⟨toks0, ho, -⟩ := prependToks_cont hp
  exact classifyBranch_cont_suffix ho

theorem scanLoop_noIndent (fuel : Nat) : ∀ (s : List Char) (pos : Nat) (st : EngState),
    st.newLine = false → '\n' ∉ s.dropLast →
    ∀ t ∈ (scanLoop fuel s pos st).1, t.type ≠ TokType.INDENT := by
  induction fuel with
  | zero => intro s pos st _ _; simp [scanLoop]
  | succ f ih =>
    intro s pos st hnl hs
    cases s with
    | nil => simp [scanLoop]
    | cons c cs =>
      simp only [scanLoop]
      cases hm : pseudoMatch (c :: cs) with
      | none =>
        intro t htm
        rcases List.mem_cons.mp htm with htm | htm
        · subst htm; simp [mkTok]
        · have hcs : '\n' ∉ cs.dropLast := by
            intro hx
            exact hs (mem_dropLast_append [c] rfl hx)
          exact ih cs (pos + 1) st hnl hcs t htm
      | some p =>
        obtain ⟨ws, tok, rest⟩ := p
        obtain ⟨-, -, -, hall⟩ := pseudoMatch_sound hm
        have hpm := processMatch_noIndent ws tok rest pos hnl
        cases hp : processMatch ws tok rest pos st with
        | cont toks rest2 newPos st2 =>
          rw [hp] at hpm
          simp only [ScanOut.outToks] at hpm
          simp only [hp]
          intro t htm
          rw [List.mem_append] at htm
          rcases htm with htm | htm
          · exact hpm t htm
          · by_cases hny : st2.newLine = false
            · obtain ⟨a, ha⟩ := processMatch_cont_suffix hp
              have hr2 : '\n' ∉ rest2.dropLast := by
                intro hx
                apply hs
                refine mem_dropLast_append (ws ++ (tok ++ a)) ?_ hx
                rw [List.append_assoc, List.append_assoc, ha]
                exact hall
              exact ih rest2 newPos st2 hny hr2 t htm
            · have hny2 : st2.newLine = true := by
                cases hb : st2.newLine
                · exact absurd hb hny
                · rfl
              have hterm := processMatch_newLine ws tok rest pos st
                (by rw [hp]; exact hny2)
              rcases hterm with hterm | hterm
              · rw [hnl] at hterm
                exact Bool.noConfusion hterm
              · have htok := pseudoMatch_nl_tok hm hterm
                have hnltok : '\n' ∈ tok := by
                  rcases htok with h2 | h2 <;> simp [h2]
                have hrest : rest = [] := nl_rest_nil hall hnltok hs
                have hlen := processMatch_cont_rest hp
                rw [hrest] at hlen
                simp at hlen
                rw [hlen, scanLoop_nil_eq] at htm
                simp at htm
        | stop toks st2 =>
          rw [hp] at hpm
          simp only [ScanOut.outToks] at hpm
          simp only [hp]
          exact hpm

theorem tokLine_noIndent {st : EngState} (line : List Char) (hnl : st.newLine = false)
    (hv : validLine line = true) :
    ∀ t ∈ (tokLine st line).1, t.type ≠ TokType.INDENT := by
  have hvn := validLine_no_nl hv
  simp only [tokLine]
  split
  · exact scanLoop_noIndent line.length line 0 _ hnl hvn
  · split
    · rename_i t0 r heq
      intro t htm
      rcases List.mem_cons.mp htm with htm | htm
      · subst htm; simp [mkTok]
      · have h3 := (endProgMatch_sound heq).1
        have hr : '\n' ∉ r.dropLast := by
          intro hx
          exact hvn (mem_dropLast_append t0 h3 hx)
        exact scanLoop_noIndent line.length r t0.length
          { st with lnum := st.lnum + 1, contstr := [] } hnl hr t htm
    · simp

theorem tokLine_lnum (st : EngState) (line : List Char) :
    (tokLine st line).2.lnum = st.lnum + 1 := by
  simp only [tokLine]
  split
  · exact (scanLoop_startLine line.length line 0 _).2
  · split
    · exact (scanLoop_startLine line.length _ _ _).2
    · rfl

theorem tokLine_indent_line (st : EngState) (line : List Char) :
    ∀ t ∈ (tokLine st line).1, t.type = TokType.INDENT → t.startLine = st.lnum + 1 := by
  simp only [tokLine]
  split
  · intro t htm _
    exact (scanLoop_startLine line.length line 0 _).1 t htm
  · split
    · intro t htm hty
      rcases List.mem_cons.mp htm with htm | htm
      · subst htm
        exact absurd hty (by simp [mkTok])
      · exact (scanLoop_startLine line.length _ _ _).1 t htm
    · simp

theorem tokLines_indent : ∀ (lines : List (List Char)) (st : EngState),
    (∀ l ∈ lines, validLine l = true) →
    (∀ t ∈ (tokLines st lines).1, t.type = TokType.INDENT → st.lnum + 1 ≤ t.startLine) ∧
    (st.newLine = false →
      ∀ t ∈ (tokLines st lines).1, t.type = TokType.INDENT → st.lnum + 2 ≤ t.startLine) := by
  intro lines
  induction lines with
  | nil => intro st _; simp [tokLines]
  | cons l ls ih =>
    intro st hv
    by_cases h : l = []
    · simp [tokLines, h]
    · simp only [tokLines, if_neg h]
      have hvl : validLine l = true := hv l (List.mem_cons_self l ls)
      have hvs : ∀ l2 ∈ ls, validLine l2 = true :=
        fun l2 hm => hv l2 (List.mem_cons_of_mem l hm)
      obtain ⟨ih1, ih2⟩ := ih (tokLine st l).2 hvs
      have hlnum := tokLine_lnum st l
      constructor
      · intro t htm hty
        rw [List.mem_append] at htm
        rcases htm with htm | htm
        · have := tokLine_indent_line st l t htm hty
          omega
        · have := ih1 t htm hty
          omega
      · intro hnl t htm hty
        rw [List.mem_append] at htm
        rcases htm with htm | htm
        · exact absurd hty (tokLine_noIndent l hnl hvl t htm)
        · have := ih1 t htm hty
          omega

theorem finishTokens_noIndent (st : EngState) :
    ∀ t ∈ finishTokens st, t.type ≠ TokType.INDENT := by
  unfold finishTokens
  intro t htm
  rw [List.append_assoc, List.mem_append, List.mem_append] at htm
  rcases htm with htm | htm | htm
  · split at htm
    · simp at htm
    · rcases List.mem_singleton.mp htm with htm
      subst htm
      simp [mkTok]
  · rw [List.mem_map] at htm
    obtain ⟨i, -, hi⟩ := htm
    subst hi
    simp [mkTok]
  · rcases List.mem_singleton.mp htm with htm
    subst htm
    simp [mkTok]

theorem breakDedents_zero (start lnum : Nat) : breakDedents start lnum [0] = ([], [0]) := by
  simp [breakDedents]

theorem classifyBranch_noID (tok rest : List Char) (start newPos lnum : Nat)
    (st : EngState) (hI : st.indents = [0]) :
    ∀ t ∈ (classifyBranch tok rest start newPos lnum st).outToks,
      t.type ≠ TokType.INDENT ∧ t.type ≠ TokType.DEDENT := by
  simp only [classifyBranch]
  repeat' split
  all_goals
    first
    | (simp [ScanOut.outToks, mkTok]
       done)
    | (intro t htm
       simp only [ScanOut.outToks] at htm
       rw [hI, breakDedents_zero] at htm
       simp only [List.nil_append, List.mem_singleton] at htm
       subst htm
       simp [mkTok])

theorem classifyBranch_state (tok rest : List Char) (start newPos lnum : Nat)
    (st : EngState) (hnl : st.newLine = false) (hp0 : st.parenLevel = 0) :
    (classifyBranch tok rest start newPos lnum st).outToks ≠ [] ∨
    ((classifyBranch tok rest start newPos lnum st).outSt.newLine = false ∧
     (classifyBranch tok rest start newPos lnum st).outSt.indents = st.indents ∧
     (classifyBranch tok rest start newPos lnum st).outSt.parenLevel = 0) := by
  simp only [classifyBranch]
  repeat' split
  all_goals
    first
    | (left
       simp [ScanOut.outToks]
       done)
    | (right
       refine ⟨?_, ?_, ?_⟩ <;> simp [ScanOut.outSt, hnl, hp0]
       done)
    | (rename_i hcond
       rw [hnl, hp0] at hcond
       simp at hcond)

theorem processMatch_noID (ws tok rest : List Char) (pos : Nat) (st0 : EngState)
    (hnl : st0.newLine = false) (hI : st0.indents = [0]) :
    ∀ t ∈ (processMatch ws tok rest pos st0).outToks,
      t.type ≠ TokType.INDENT ∧ t.type ≠ TokType.DEDENT := by
  unfold processMatch
  simp only [prependToks_outToks]
  have hf : freshLineBlock (pos + ws.length) (st0.lnum, pos + ws.length) (tok.headD ' ')
      { st0 with prefixVal := ws } = ([], { st0 with prefixVal := ws }) :=
    freshLineBlock_off _ _ _ hnl
  rw [hf]
  simp only [List.nil_append]
  exact fun t htm =>
    classifyBranch_noID _ _ _ _ _ { st0 with prefixVal := ws } hI t htm

theorem processMatch_state (ws tok rest : List Char) (pos : Nat) (st0 : EngState)
    (hnl : st0.newLine = false) (hp0 : st0.parenLevel = 0) :
    (processMatch ws tok rest pos st0).outToks ≠ [] ∨
    ((processMatch ws tok rest pos st0).outSt.newLine = false ∧
     (processMatch ws tok rest pos st0).outSt.indents = st0.indents ∧
     (processMatch ws tok rest pos st0).outSt.parenLevel = 0) := by
  unfold processMatch
  simp only [prependToks_outToks, prependToks_outSt]
  have hf : freshLineBlock (pos + ws.length) (st0.lnum, pos + ws.length) (tok.headD ' ')
      { st0 with prefixVal := ws } = ([], { st0 with prefixVal := ws }) :=
    freshLineBlock_off _ _ _ hnl
  rw [hf]
  simp only [List.nil_append]
  rcases classifyBranch_state tok rest (pos + ws.length) (pos + ws.length + tok.length)
      st0.lnum { st0 with prefixVal := ws } hnl hp0 with h2 | ⟨h1, h2, h3⟩
  · exact Or.inl h2
  · exact Or.inr ⟨h1, h2, h3⟩

theorem scanLoop_first (fuel : Nat) : ∀ (s : List Char) (pos : Nat) (st : EngState),
    st.newLine = false → st.indents = [0] → st.parenLevel = 0 →
    (∀ t, (scanLoop fuel s pos st).1.head? = some t →
        t.type ≠ TokType.INDENT ∧ t.type ≠ TokType.DEDENT) ∧
    ((scanLoop fuel s pos st).1 = [] →
      (scanLoop fuel s pos st).2.newLine = false ∧
      (scanLoop fuel s pos st).2.indents = [0] ∧
      (scanLoop fuel s pos st).2.parenLevel = 0) := by
  induction fuel with
  | zero =>
    intro s pos st hnl hI hp0
    simp only [scanLoop]
    exact ⟨fun t ht => Option.noConfusion ht, fun _ => ⟨hnl, hI, hp0⟩⟩
  | succ f ih =>
    intro s pos st hnl hI hp0
    cases s with
    | nil =>
      simp only [scanLoop]
      exact ⟨fun t ht => Option.noConfusion ht, fun _ => ⟨hnl, hI, hp0⟩⟩
    | cons c cs =>
      simp only [scanLoop]
      cases hm : pseudoMatch (c :: cs) with
      | none =>
        constructor
        · intro t ht
          simp only [List.head?_cons, Option.some.injEq] at ht
          subst ht
          simp [mkTok]
        · intro he
          simp at he
      | some p =>
        obtain ⟨ws, tok, rest⟩ := p
        cases hp : processMatch ws tok rest pos st with
        | cont toks rest2 newPos st2 =>
          simp only [hp]
          by_cases ht0 : toks = []
          · subst ht0
            have hst := processMatch_state ws tok rest pos st hnl hp0
            rw [hp] at hst
            simp only [ScanOut.outToks, ScanOut.outSt] at hst
            rcases hst with hbad | ⟨h1, h2, h3⟩
            · exact absurd rfl hbad
            · rw [hI] at h2
              obtain ⟨ihh, ihe⟩ := ih rest2 newPos st2 h1 h2 h3
              simp only [List.nil_append]
              exact ⟨ihh, ihe⟩
          · constructor
            · intro t ht
              rw [List.head?_append_of_ne_nil toks ht0] at ht
              have htm : t ∈ toks := by
                cases toks with
                | nil => exact absurd rfl ht0
                | cons t1 ts1 =>
                  simp only [List.head?_cons, Option.some.injEq] at ht
                  subst ht
                  exact List.mem_cons_self _ _
              have hni := processMatch_noID ws tok rest pos st hnl hI
              rw [hp] at hni
              simp only [ScanOut.outToks] at hni
              exact hni t htm
            · intro he
              rw [List.append_eq_nil] at he
              exact absurd he.1 ht0
        | stop toks st2 =>
          simp only [hp]
          by_cases ht0 : toks = []
          · constructor
            · intro t ht
              rw [ht0] at ht
              exact Option.noConfusion ht
            · intro _
              have hst := processMatch_state ws tok rest pos st hnl hp0
              rw [hp] at hst
              simp only [ScanOut.outToks, ScanOut.outSt] at hst
              rcases hst with hbad | ⟨h1, h2, h3⟩
              · exact absurd ht0 hbad
              · rw [hI] at h2
                exact ⟨h1, h2, h3⟩
          · constructor
            · intro t ht
              have htm : t ∈ toks := by
                cases toks with
                | nil => exact absurd rfl ht0
                | cons t1 ts1 =>
                  simp only [List.head?_cons, Option.some.injEq] at ht
                  subst ht
                  exact List.mem_cons_self _ _
              have hni := processMatch_noID ws tok rest pos st hnl hI
              rw [hp] at hni
              simp only [ScanOut.outToks] at hni
              exact hni t htm
            · intro he
              exact absurd he ht0

theorem tokLine_first (st : EngState) (line : List Char) (hnl : st.newLine = false)
    (hI : st.indents = [0]) (hp0 : st.parenLevel = 0) :
    (∀ t, (tokLine st line).1.head? = some t →
        t.type ≠ TokType.INDENT ∧ t.type ≠ TokType.DEDENT) ∧
    ((tokLine st line).1 = [] →
      (tokLine st line).2.newLine = false ∧
      (tokLine st line).2.indents = [0] ∧
      (tokLine st line).2.parenLevel = 0) := by
  simp only [tokLine]
  split
  · exact scanLoop_first line.length line 0 _ hnl hI hp0
  · split
    · constructor
      · intro t ht
        simp only [List.head?_cons, Option.some.injEq] at ht
        subst ht
        simp [mkTok]
      · intro he
        simp at he
    · constructor
      · intro t ht
        exact Option.noConfusion ht
      · intro _
        exact ⟨hnl, hI, hp0⟩

theorem tokLines_first : ∀ (lines : List (List Char)) (st : EngState),
    st.newLine = false → st.indents = [0] → st.parenLevel = 0 →
    (∀ t, (tokLines st lines).1.head? = some t →
        t.type ≠ TokType.INDENT ∧ t.type ≠ TokType.DEDENT) ∧
    ((tokLines st lines).1 = [] →
      (tokLines st lines).2.newLine = false ∧
      (tokLines st lines).2.indents = [0] ∧
      (tokLines st lines).2.parenLevel = 0) := by
  intro lines
  induction lines with
  | nil =>
    intro st hnl hI hp0
    simp only [tokLines]
    exact ⟨fun t ht => Option.noConfusion ht, fun _ => ⟨hnl, hI, hp0⟩⟩
  | cons l ls ih =>
    intro st hnl hI hp0
    by_cases h : l = []
    · simp only [tokLines, if_pos h]
      exact ⟨fun t ht => Option.noConfusion ht, fun _ => ⟨hnl, hI, hp0⟩⟩
    · simp only [tokLines, if_neg h]
      obtain ⟨tl1, tl2⟩ := tokLine_first st l hnl hI hp0
      by_cases ht0 : (tokLine st l).1 = []
      · rw [ht0]
        simp only [List.nil_append]
        obtain ⟨h1, h2, h3⟩ := tl2 ht0
        exact ih (tokLine st l).2 h1 h2 h3
      · constructor
        · intro t ht
          rw [List.head?_append_of_ne_nil _ ht0] at ht
          exact tl1 t ht
        · intro he
          rw [List.append_eq_nil] at he
          exact absurd he.1 ht0

theorem finishTokens_head (st : EngState) (hI : st.indents = [0]) :
    ∀ t, (finishTokens st).head? = some t →
      t.type ≠ TokType.INDENT ∧ t.type ≠ TokType.DEDENT := by
  unfold finishTokens
  rw [hI]
  split <;>
    (intro t ht
     simp at ht
     subst ht
     simp [mkTok])

/-- C10: with the input lines shaped as `readline` produces them (a line
feed only as the last character of a line), no `Indent` token is ever
emitted on the first physical line `line_offset + 1` — the fresh-line
flag starts `False` and its flip ends the line — and the first token of
any run is never `Indent` or `Dedent`. -/
theorem c10_first_line_no_indent (off : Nat) (lines : List (List Char))
    (hv : ∀ l ∈ lines, validLine l = true) :
    (∀ t ∈ generate_tokens off lines, t.type = TokType.INDENT → off + 2 ≤ t.startLine) ∧
    (∀ t, (generate_tokens off lines).head? = some t →
      t.type ≠ TokType.INDENT ∧ t.type ≠ TokType.DEDENT) := by
  constructor
  · intro t htm hty
    unfold generate_tokens at htm
    simp only [] at htm
    rw [List.mem_append] at htm
    rcases htm with htm | htm
    · have h2 := (tokLines_indent lines (initState off) hv).2 rfl t htm hty
      have h0 : (initState off).lnum = off := rfl
      omega
    · exact absurd hty (finishTokens_noIndent _ t htm)
  · intro t ht
    unfold generate_tokens at ht
    simp only [] at ht
    by_cases hb : (tokLines (initState off) lines).1 = []
    · rw [hb] at ht
      simp only [List.nil_append] at ht
      have hpres := (tokLines_first lines (initState off) rfl rfl rfl).2 hb
      exact finishTokens_head _ hpres.2.1 t ht
    · rw [List.head?_append_of_ne_nil _ hb] at ht
      exact (tokLines_first lines (initState off) rfl rfl rfl).1 t ht

/-! ### C1: the round trip on the loss-free fragment

On lines of `safeChar` text (word characters, blank class, operators,
`~`, punctuation) closed by a line feed and holding at least one
non-blank character, every pseudo-match emits tokens whose prefix and
value tile the consumed text exactly, the error path (unreachable here,
but harmless) consumes exactly the characters it re-emits, and the
structural tokens are zero-width, so concatenating `prefix ++ value`
reproduces the input. -/

theorem headD_mem {tok : List Char} (h : tok ≠ []) : tok.headD ' ' ∈ tok := by
  cases tok with
  | nil => exact absurd rfl h
  | cons c cs => simp

theorem altM_eq_none {α : Type} {a b : Option α} :
    altM a b = none ↔ a = none ∧ b = none := by
  cases a <;> simp [altM]

theorem dropWhile_head_not {p : Char → Bool} {c : Char} : ∀ {s cs : List Char},
    List.dropWhile p s = c :: cs → p c = false := by
  intro s
  induction s with
  | nil => intro cs h; simp at h
  | cons a as ih =>
    intro cs h
    by_cases hp : p a
    · rw [List.dropWhile_cons_of_pos hp] at h
      exact ih h
    · rw [List.dropWhile_cons_of_neg hp] at h
      injection h with h1 h2
      rw [← h1]
      exact Bool.eq_false_iff.mpr hp

theorem matchName_word {c : Char} {cs : List Char} (h : isWordChar c = true) :
    matchName (c :: cs) ≠ none := by
  unfold matchName
  rw [List.takeWhile_cons]
  simp [h]

theorem matchOperator_op {c : Char} {cs : List Char}
    (h : isOpChar c = true ∨ c = '~') : matchOperator (c :: cs) ≠ none := by
  rw [matchOperator.eq_def]
  repeat' split
  all_goals simp_all

theorem matchSpecial_punct {c : Char} {cs : List Char} (h : isPunctChar c = true) :
    matchSpecial (c :: cs) ≠ none := by
  intro hnone
  rw [matchSpecial.eq_def] at hnone
  simp only [isPunctChar, Bool.or_eq_true, decide_eq_true_eq] at h
  split at hnone
  all_goals
    first
    | exact Option.noConfusion hnone
    | (rcases h with ((((h | h) | h) | h) | h) <;>
        (subst h
         rename_i heq
         injection heq with he1 he2
         subst he1
         simp [isPunctChar] at hnone))
    | simp_all

theorem matchGroup2_safe_ne_none {c : Char} {cs : List Char} (hc : safeChar c = true)
    (hw : isWsChar c = false) : matchGroup2 (c :: cs) ≠ none := by
  intro hnone
  simp only [matchGroup2, matchFunny, altM_eq_none] at hnone
  obtain ⟨-, -, -, -, ⟨hop, -, hsp⟩, -, hnm⟩ := hnone
  simp only [safeChar, Bool.or_eq_true, decide_eq_true_eq] at hc
  rcases hc with ((((hcl | hcl) | hcl) | hcl) | hcl)
  · exact matchName_word hcl hnm
  · rw [hcl] at hw
    exact Bool.noConfusion hw
  · exact matchOperator_op (Or.inl hcl) hop
  · exact matchOperator_op (Or.inr hcl) hop
  · exact matchSpecial_punct hcl hsp

theorem pseudoMatch_safe {s : List Char} (hlast : s.getLast? = some '\n')
    (hsafe : s.dropLast.all safeChar = true) : pseudoMatch s ≠ none := by
  have hsplit : s.dropLast ++ ['\n'] = s := List.dropLast_append_getLast? '\n' hlast
  have hmem : ∀ c ∈ s, safeChar c = true ∨ c = '\n' := by
    intro c hcm
    rw [← hsplit] at hcm
    rw [List.mem_append] at hcm
    rcases hcm with hcm | hcm
    · exact Or.inl (List.all_eq_true.mp hsafe c hcm)
    · rcases List.mem_singleton.mp hcm with hcm
      exact Or.inr hcm
  have hne : s.dropWhile isWsChar ≠ [] := by
    intro he
    rw [List.dropWhile_eq_nil_iff] at he
    have hn : '\n' ∈ s := by
      rw [← hsplit]
      exact List.mem_append_right _ (List.mem_singleton.mpr rfl)
    have := he '\n' hn
    simp [isWsChar] at this
  intro hnone
  unfold pseudoMatch at hnone
  simp only [] at hnone
  rw [Option.map_eq_none'] at hnone
  cases hd : s.dropWhile isWsChar with
  | nil => exact hne hd
  | cons c cs =>
    rw [hd] at hnone
    have hcw : isWsChar c = false := dropWhile_head_not hd
    have hcm : c ∈ s := by
      have h2 : c ∈ s.dropWhile isWsChar := by rw [hd]; simp
      exact List.Sublist.mem h2 (List.dropWhile_sublist isWsChar)
    rcases hmem c hcm with hcs | hcs
    · exact matchGroup2_safe_ne_none hcs hcw hnone
    · subst hcs
      rw [matchGroup2_lf] at hnone
      exact Option.noConfusion hnone

theorem roundTrip_append (a b : List Token) :
    roundTrip (a ++ b) = roundTrip a ++ roundTrip b := by
  simp [roundTrip]

theorem prependToks_nil (o : ScanOut) : prependToks [] o = o := by
  cases o <;> simp [prependToks]

theorem dedentsBelow_rt (start : Nat) (spos : Nat × Nat) (is : List Nat) :
    roundTrip (dedentsBelow start spos is).1 = [] := by
  induction is with
  | nil => simp [dedentsBelow, roundTrip]
  | cons i is ih =>
    by_cases h : start < i
    · simp only [dedentsBelow, if_pos h]
      simpa [roundTrip, tokText, isStructural, mkTok] using ih
    · simp [dedentsBelow, if_neg h, roundTrip]

theorem breakDedents_rt (start lnum : Nat) (is : List Nat) :
    roundTrip (breakDedents start lnum is).1 = [] := by
  induction is with
  | nil => simp [breakDedents, roundTrip]
  | cons i is ih =>
    by_cases h : i > start
    · simp only [breakDedents, if_pos h]
      simpa [roundTrip, tokText, isStructural, mkTok] using ih
    · simp [breakDedents, if_neg h, roundTrip]

theorem indentTokens_rt (start : Nat) (spos : Nat × Nat) (paren : Int) (is : List Nat) :
    roundTrip (indentTokens start spos paren is).1 = [] := by
  unfold indentTokens
  split
  · split
    · simp [roundTrip, tokText, isStructural, mkTok]
    · exact dedentsBelow_rt start spos is
  · simp [roundTrip]

theorem freshLineBlock_rt (start : Nat) (spos : Nat × Nat) (initial : Char)
    (st : EngState) : roundTrip (freshLineBlock start spos initial st).1 = [] := by
  unfold freshLineBlock
  split
  · exact indentTokens_rt _ _ _ _
  · simp [roundTrip]

theorem freshLineBlock_contstr (start : Nat) (spos : Nat × Nat) (initial : Char)
    (st : EngState) : (freshLineBlock start spos initial st).2.contstr = st.contstr := by
  unfold freshLineBlock
  split <;> rfl

theorem freshLineBlock_prefix (start : Nat) (spos : Nat × Nat) (initial : Char)
    (st : EngState) : (freshLineBlock start spos initial st).2.prefixVal = st.prefixVal := by
  unfold freshLineBlock
  split <;> rfl

theorem freshLineBlock_newLine_off {initial : Char} (start : Nat) (spos : Nat × Nat)
    (st : EngState)
    (h : st.newLine = false ∨ ¬ (initial = '\r' ∨ initial = '\n' ∨ initial = '#')) :
    (freshLineBlock start spos initial st).2.newLine = false := by
  unfold freshLineBlock
  split
  · rfl
  · rename_i hcond
    rcases h with h | h
    · exact h
    · cases hb : st.newLine
      · rfl
      · exfalso
        rw [not_or, not_or] at h
        rw [hb] at hcond
        simp [h.1, h.2.1, h.2.2] at hcond

theorem classifyBranch_safe (tok rest : List Char) (start newPos lnum : Nat)
    (st : EngState) (htok : ∀ c ∈ tok, safeChar c = true ∨ c = '\n') (htne : tok ≠ [])
    (hp0 : st.parenLevel = 0) (hnl : st.newLine = false) :
    ∃ toks st2,
      classifyBranch tok rest start newPos lnum st = .cont toks rest newPos st2 ∧
      roundTrip toks = st.prefixVal ++ tok ∧
      st2.parenLevel = 0 ∧ st2.contstr = st.contstr ∧
      (st2.newLine = true → tok.headD ' ' = '\n') := by
  have hh := htok (tok.headD ' ') (headD_mem htne)
  have hno3 : ∀ l ∈ tripleQuotedList, ¬ ∀ c ∈ l, (safeChar c = true ∨ c = '\n') := by
    decide
  have hno1 : ∀ l ∈ singleQuotedList, ¬ ∀ c ∈ l, (safeChar c = true ∨ c = '\n') := by
    decide
  have hc4 : ¬ tok ∈ tripleQuotedList := fun hm => hno3 tok hm htok
  have hc5a : ¬ [tok.headD ' '] ∈ singleQuotedList := fun hm =>
    hno1 _ hm (by
      intro c2 hc2
      rw [List.mem_singleton] at hc2
      subst hc2
      exact hh)
  have hc5b : ¬ tok.take 2 ∈ singleQuotedList := fun hm =>
    hno1 _ hm fun c2 hc2 => htok c2 (List.mem_of_mem_take hc2)
  have hc5c : ¬ tok.take 3 ∈ singleQuotedList := fun hm =>
    hno1 _ hm fun c2 hc2 => htok c2 (List.mem_of_mem_take hc2)
  have hc3 : ¬ tok.headD ' ' = '#' := by
    intro he
    rw [he] at hh
    exact absurd hh (by decide)
  have hc7 : ¬ tok.headD ' ' = '\\' := by
    intro he
    rw [he] at hh
    exact absurd hh (by decide)
  have hopen : ¬ (tok = ['('] ∨ tok = ['['] ∨ tok = ['\x7b']) := by
    rintro (he | he | he) <;>
      (subst he
       exact absurd (htok _ (List.mem_cons_self _ _)) (by decide))
  have hclose : ¬ (tok = [')'] ∨ tok = [']'] ∨ tok = ['\x7d']) := by
    rintro (he | he | he) <;>
      (subst he
       exact absurd (htok _ (List.mem_cons_self _ _)) (by decide))
  simp only [classifyBranch]
  repeat' split
  all_goals
    first
    | (refine ⟨_, _, rfl, ?_, ?_, ?_, ?_⟩
       · simp [roundTrip, tokText, isStructural, mkTok]
       · exact hp0
       · rfl
       · simp [hnl])
    | (rename_i hcond hts
       refine ⟨_, _, rfl, ?_, ?_, ?_, ?_⟩
       · simp [roundTrip, tokText, isStructural, mkTok]
       · exact hp0
       · rfl
       · intro _
         simp only [Bool.or_eq_true, decide_eq_true_eq] at hcond
         rcases hcond with hq | hq
         · rw [hq] at hh
           exact absurd hh (by decide)
         · exact hq)
    | (rename_i hcond hts
       rw [hnl, hp0] at hts
       simp at hts)
    | (refine ⟨_, _, rfl, ?_, ?_, ?_, ?_⟩
       · rw [roundTrip_append, breakDedents_rt]
         simp [roundTrip, tokText, isStructural, mkTok]
       · rfl
       · rfl
       · simp [hnl])
    | simp_all

theorem processMatch_safe (ws tok rest : List Char) (pos : Nat) (st : EngState)
    (htok : ∀ c ∈ tok, safeChar c = true ∨ c = '\n') (htne : tok ≠ [])
    (hp0 : st.parenLevel = 0)
    (hnw : st.newLine = true → safeChar (tok.headD ' ') = true) :
    ∃ toks st2,
      processMatch ws tok rest pos st =
        .cont toks rest (pos + ws.length + tok.length) st2 ∧
      roundTrip toks = ws ++ tok ∧ st2.parenLevel = 0 ∧ st2.contstr = st.contstr ∧
      (st2.newLine = true → tok.headD ' ' = '\n') := by
  unfold processMatch
  simp only []
  have hni2 : st.newLine = false ∨
      ¬ (tok.headD ' ' = '\r' ∨ tok.headD ' ' = '\n' ∨ tok.headD ' ' = '#') := by
    by_cases hb : st.newLine = true
    · right
      have hsafe := hnw hb
      rintro (he | he | he) <;> (rw [he] at hsafe; exact absurd hsafe (by decide))
    · exact Or.inl (Bool.eq_false_iff.mpr hb)
  generalize hist : freshLineBlock (pos + ws.length) (st.lnum, pos + ws.length)
      (tok.headD ' ') { st with prefixVal := ws } = ist
  have h1 : roundTrip ist.1 = [] := by
    rw [← hist]
    exact freshLineBlock_rt _ _ _ _
  have h2 : ist.2.parenLevel = 0 := by
    rw [← hist]
    rw [freshLineBlock_paren (pos + ws.length) (st.lnum, pos + ws.length)
      (tok.headD ' ') { st with prefixVal := ws }]
    exact hp0
  have h3 : ist.2.contstr = st.contstr := by
    rw [← hist]
    exact freshLineBlock_contstr _ _ _ _
  have h4 : ist.2.prefixVal = ws := by
    rw [← hist]
    exact freshLineBlock_prefix _ _ _ _
  have h5 : ist.2.newLine = false := by
    rw [← hist]
    refine freshLineBlock_newLine_off _ _ _ ?_
    rcases hni2 with h | h
    · exact Or.inl h
    · exact Or.inr h
  obtain ⟨toks, st2, heq2, hrt, hpar, hcon, hnl2⟩ :=
    classifyBranch_safe tok rest (pos + ws.length) (pos + ws.length + tok.length) st.lnum
      ist.2 htok htne h2 h5
  rw [heq2]
  refine ⟨_, _, rfl, ?_, hpar, ?_, hnl2⟩
  · rw [roundTrip_append, h1, List.nil_append, hrt, h4]
  · rw [hcon, h3]

theorem scanLoop_safe (fuel : Nat) : ∀ (s : List Char) (pos : Nat) (st : EngState),
    s.getLast? = some '\n' → s.dropLast.all safeChar = true →
    st.parenLevel = 0 →
    (st.newLine = true → safeChar ((s.dropWhile isWsChar).headD ' ') = true) →
    s.length ≤ fuel →
    roundTrip (scanLoop fuel s pos st).1 = s ∧
    (scanLoop fuel s pos st).2.parenLevel = 0 ∧
    (scanLoop fuel s pos st).2.contstr = st.contstr := by
  induction fuel with
  | zero =>
    intro s pos st hlast _ _ _ hlen
    cases s with
    | nil => simp at hlast
    | cons c cs => simp at hlen
  | succ f ih =>
    intro s pos st hlast hsafe hp0 hnw hlen
    cases s with
    | nil => simp at hlast
    | cons c cs =>
      simp only [scanLoop]
      cases hm : pseudoMatch (c :: cs) with
      | none => exact absurd hm (pseudoMatch_safe hlast hsafe)
      | some p =>
        obtain ⟨ws, tok, rest⟩ := p
        obtain ⟨hws, hsplit2, htne, hall⟩ := pseudoMatch_sound hm
        have hs_eq : (c :: cs).dropLast ++ ['\n'] = c :: cs :=
          List.dropLast_append_getLast? '\n' hlast
        have hmem : ∀ c2 ∈ (c :: cs), safeChar c2 = true ∨ c2 = '\n' := by
          intro c2 hc2
          rw [← hs_eq, List.mem_append] at hc2
          rcases hc2 with hc2 | hc2
          · exact Or.inl (List.all_eq_true.mp hsafe c2 hc2)
          · rcases List.mem_singleton.mp hc2 with hc2
            exact Or.inr hc2
        have htok : ∀ c2 ∈ tok, safeChar c2 = true ∨ c2 = '\n' := by
          intro c2 hc2
          refine hmem c2 ?_
          rw [← hall]
          exact List.mem_append_right ws (List.mem_append_left rest hc2)
        have hhead : tok.headD ' ' = ((c :: cs).dropWhile isWsChar).headD ' ' := by
          rw [← hsplit2]
          cases tok with
          | nil => exact absurd rfl htne
          | cons t0 ts => simp
        have hnw2 : st.newLine = true → safeChar (tok.headD ' ') = true := by
          intro hb
          rw [hhead]
          exact hnw hb
        obtain ⟨toks, st2, heq2, hrt, hpar, hcon, hnl2⟩ :=
          processMatch_safe ws tok rest pos st htok htne hp0 hnw2
        simp only []
        rw [heq2]
        simp only []
        by_cases hr : rest = []
        · subst hr
          rw [scanLoop_nil_eq]
          refine ⟨?_, hpar, hcon⟩
          simp only [List.append_nil]
          rw [hrt, ← hall]
          simp
        · have hx : tok ++ rest ≠ [] := fun hcontra =>
            hr (List.append_eq_nil.mp hcontra).2
          have hrlast : rest.getLast? = some '\n' := by
            have e1 : (ws ++ (tok ++ rest)).getLast? = (tok ++ rest).getLast? :=
              List.getLast?_append_of_ne_nil ws hx
            have e2 : (tok ++ rest).getLast? = rest.getLast? :=
              List.getLast?_append_of_ne_nil tok hr
            rw [hall] at e1
            rw [← e2, ← e1]
            exact hlast
          have hrsafe : rest.dropLast.all safeChar = true := by
            rw [List.all_eq_true]
            intro x hx2
            refine List.all_eq_true.mp hsafe x ?_
            refine mem_dropLast_append (ws ++ tok) ?_ hx2
            rw [List.append_assoc]
            exact hall
          have hlen2 : rest.length ≤ f := by
            have hprog := pseudoMatch_progress hm
            simp only [List.length_cons] at hlen hprog
            omega
          have hnw3 : st2.newLine = true →
              safeChar ((rest.dropWhile isWsChar).headD ' ') = true := by
            intro hb
            have hhd := hnl2 hb
            have htok2 := pseudoMatch_nl_tok hm (Or.inr hhd)
            have hnltok : '\n' ∈ tok := by
              rcases htok2 with h6 | h6 <;> simp [h6]
            have hnil : rest = [] := by
              refine nl_rest_nil hall hnltok ?_
              intro hx3
              have h7 := List.all_eq_true.mp hsafe '\n' hx3
              exact absurd h7 (by decide)
            exact absurd hnil hr
          obtain ⟨ihrt, ihpar, ihcon⟩ :=
            ih rest (pos + ws.length + tok.length) st2 hrlast hrsafe hpar hnw3 hlen2
          refine ⟨?_, ihpar, ?_⟩
          · rw [roundTrip_append, hrt, ihrt, ← hall, List.append_assoc]
          · rw [ihcon, hcon]

theorem safe_line_head : ∀ (l t : List Char), l.all safeChar = true →
    l.any (fun c => !isWsChar c) = true →
    safeChar (((l ++ t).dropWhile isWsChar).headD ' ') = true := by
  intro l
  induction l with
  | nil => intro t _ hany; simp at hany
  | cons c cs ih =>
    intro t hall hany
    simp only [List.all_cons, Bool.and_eq_true] at hall
    by_cases hw : isWsChar c = true
    · rw [List.cons_append, List.dropWhile_cons_of_pos hw]
      refine ih t hall.2 ?_
      simp only [List.any_cons, Bool.or_eq_true] at hany
      rcases hany with hany | hany
      · rw [hw] at hany
        simp at hany
      · exact hany
    · rw [List.cons_append, List.dropWhile_cons_of_neg hw]
      simp only [List.headD_cons]
      exact hall.1

theorem tokLine_safe (st : EngState) (l : List Char) (hv : safeLineB l = true)
    (hp0 : st.parenLevel = 0) (hcs : st.contstr = []) :
    roundTrip (tokLine st l).1 = l ∧
    (tokLine st l).2.parenLevel = 0 ∧ (tokLine st l).2.contstr = [] := by
  simp only [safeLineB, Bool.and_eq_true, decide_eq_true_eq] at hv
  obtain ⟨⟨h1, h2⟩, h3⟩ := hv
  simp only [tokLine]
  split
  · have hnw : ({ st with lnum := st.lnum + 1 } : EngState).newLine = true →
        safeChar ((l.dropWhile isWsChar).headD ' ') = true := by
      intro _
      have h4 := safe_line_head l.dropLast ['\n'] h2 h3
      rwa [List.dropLast_append_getLast? '\n' h1] at h4
    have hout := scanLoop_safe l.length l 0 { st with lnum := st.lnum + 1 }
      h1 h2 hp0 hnw le_rfl
    exact ⟨hout.1, hout.2.1, by rw [hout.2.2]; exact hcs⟩
  · rename_i hne
    exact absurd hcs hne

theorem tokLines_safe : ∀ (lines : List (List Char)) (st : EngState),
    (∀ l ∈ lines, safeLineB l = true) → st.parenLevel = 0 → st.contstr = [] →
    roundTrip (tokLines st lines).1 = lines.flatten ∧
    (tokLines st lines).2.contstr = [] := by
  intro lines
  induction lines with
  | nil =>
    intro st _ _ hcs
    simp only [tokLines]
    exact ⟨by simp [roundTrip], hcs⟩
  | cons l ls ih =>
    intro st hv hp0 hcs
    have hl : safeLineB l = true := hv l (List.mem_cons_self _ _)
    have hlne : l ≠ [] := by
      intro he
      rw [he] at hl
      simp [safeLineB] at hl
    simp only [tokLines, if_neg hlne]
    obtain ⟨t1, t2, t3⟩ := tokLine_safe st l hl hp0 hcs
    obtain ⟨i1, i2⟩ := ih (tokLine st l).2
      (fun l2 hm => hv l2 (List.mem_cons_of_mem _ hm)) t2 t3
    constructor
    · rw [roundTrip_append, t1, i1]
      simp
    · exact i2

theorem roundTrip_map_dedent (is : List Nat) (p : Nat × Nat) :
    roundTrip (is.map (fun _ => mkTok .DEDENT [] p [])) = [] := by
  induction is with
  | nil => simp [roundTrip]
  | cons i is2 ih => simpa [roundTrip, tokText, isStructural, mkTok] using ih

theorem finishTokens_rt (st : EngState) (h : st.contstr = []) :
    roundTrip (finishTokens st) = [] := by
  unfold finishTokens
  rw [if_pos h, List.nil_append, roundTrip_append, roundTrip_map_dedent]
  simp [roundTrip, tokText, isStructural, mkTok]

/-- C1: on the loss-free fragment — every line made of `safeChar` text
(word characters, blank class, operators, `~`, punctuation), holding at
least one non-blank character and closed by a line feed — concatenating
`prefix ++ value` of every emitted token in order, with the zero-width
structural tokens excluded, reproduces the input exactly.  (Outside the
fragment the round trip can lose text: see the counterexample, where a
comment is consumed without being folded into any prefix.) -/
theorem c1_amended_safe_roundtrip (off : Nat) (lines : List (List Char))
    (hv : ∀ l ∈ lines, safeLineB l = true) :
    roundTrip (generate_tokens off lines) = lines.flatten := by
  unfold generate_tokens
  simp only []
  rw [roundTrip_append]
  obtain ⟨h1, h2⟩ := tokLines_safe lines (initState off) hv rfl rfl
  rw [h1, finishTokens_rt _ h2, List.append_nil]

/-- C1, witness: a two-line fragment program — an assignment and an
indented name — round-trips exactly. -/
theorem c1_amended_witness :
    (∀ l ∈ [lc "x = 1\n", lc "  y\n"], safeLineB l = true) ∧
      roundTrip (generate_tokens 0 [lc "x = 1\n", lc "  y\n"]) =
        ([lc "x = 1\n", lc "  y\n"] : List (List Char)).flatten :=
  ⟨by decide, c1_amended_safe_roundtrip 0 [lc "x = 1\n", lc "  y\n"] (by decide)⟩

/-- C10, witness: a first line with leading whitespace produces no
`Indent` at all, and the head of the stream is a plain token. -/
theorem c10_witness :
    (∀ l ∈ [lc "  x\n"], validLine l = true) ∧
      (∀ t ∈ generate_tokens 0 [lc "  x\n"], t.type = TokType.INDENT → 0 + 2 ≤ t.startLine) ∧
      (∀ t, (generate_tokens 0 [lc "  x\n"]).head? = some t →
        t.type ≠ TokType.INDENT ∧ t.type ≠ TokType.DEDENT) :=
  ⟨by decide, c10_first_line_no_indent 0 [lc "  x\n"] (by decide)⟩

end Jedi